import Mathlib

/-!
Verification of the Wright-Fisher demographic simulator
(`evolutionary_simulator/core.py`).

The Python code is shallowly embedded as executable Lean definitions:

* Python `dict`s (insertion ordered, unique keys) become association lists
  with an insert-or-replace update (`dset`) and a first-match lookup
  (`dget?`).
* Python exceptions (`KeyError`, `ValueError`, `IndexError`,
  `ZeroDivisionError`) become an `Except PyErr` result.
* Python floats become rationals (`ℚ`); `int(x)` is truncation toward
  zero (`pyInt`), `math.isclose` is `pyIsClose` with the default relative
  tolerance.
* Randomness: every call into the `random` module is modeled by an
  oracle, a family of functions supplying, at every call site, the
  outcome of the underlying uniform draw.  `random.random()` reads a
  rational from the oracle (well-formed oracles keep it in `[0,1)`),
  `random.choice(seq)` and `random.randint(0, n-1)` read a natural
  number reduced modulo the range, `random.choices` with weights uses
  the CPython algorithm (cumulative weights and a right-bisection of
  `random() * total`, clamped to the last index), and `random.shuffle`
  is the Fisher-Yates algorithm used by CPython driven by oracle draws.
  `random.sample(range(n), N)` is modeled as `N` oracle-chosen positions
  below `n` (the sampled positions being distinct is immaterial to every
  property proved here), keeping its `ValueError` when `N > n`.
  Theorems quantify over all (well-formed) oracles, or evaluate at a
  concrete one.
-/

/-- The Python exceptions the embedded code can raise. -/
inductive PyErr where
  | keyError : PyErr
  | valueError : PyErr
  | indexError : PyErr
  | zeroDivisionError : PyErr
deriving DecidableEq, Repr

/-! ### Python dictionaries as insertion-ordered association lists -/

/-- Lookup in a Python dict (first match; built dicts have unique keys). -/
def dget? {κ β : Type} [DecidableEq κ] : List (κ × β) → κ → Option β
  | [], _ => none
  | (k0, v0) :: d, k => if k = k0 then some v0 else dget? d k

/-- Python dict assignment `d[k] = v`: replace in place if the key is
present, else append at the end (insertion order). -/
def dset {κ β : Type} [DecidableEq κ] : List (κ × β) → κ → β → List (κ × β)
  | [], k, v => [(k, v)]
  | (k0, v0) :: d, k, v => if k = k0 then (k0, v) :: d else (k0, v0) :: dset d k v

/-- `list(d.keys())`. -/
def dkeys {κ β : Type} (d : List (κ × β)) : List κ := d.map Prod.fst

/-- `sum(d.values())` for a rational-valued dict. -/
def sumV {κ : Type} (d : List (κ × ℚ)) : ℚ := (d.map Prod.snd).sum

/-! ### Numeric primitives -/

/-- Python `int(x)`: truncation toward zero. -/
def pyInt (q : ℚ) : ℤ := if 0 ≤ q then ⌊q⌋ else ⌈q⌉

/-- Python `math.isclose(a, b)` with the default `rel_tol=1e-9`,
`abs_tol=0.0`. -/
def pyIsClose (a b : ℚ) : Bool := |a - b| ≤ (1 / 1000000000) * max |a| |b|

/-- Python `max(list)` on a nonempty list of rationals (0 for `[]`,
which no call site reaches). -/
def maxList : List ℚ → ℚ
  | [] => 0
  | x :: xs => xs.foldl max x

/-! ### `random` module primitives, oracle driven -/

/-- `random.choice(seq)`: `IndexError` on an empty sequence, else the
element at the oracle-chosen position. -/
def pyChoice (l : List ℤ) (v : ℕ) : Except PyErr ℤ :=
  if l.isEmpty then .error .indexError else .ok (l.getD (v % l.length) 0)

/-- Cumulative sums, as `itertools.accumulate` inside `random.choices`. -/
def cumSums (w : List ℚ) : List ℚ :=
  (w.foldl (fun (acc : List ℚ × ℚ) x => (acc.1 ++ [acc.2 + x], acc.2 + x)) ([], 0)).1

/-- Right bisection point of `target` in the first `hi` entries of `cum`
(`bisect.bisect(cum_weights, target, 0, hi)` for sorted cumulative
weights): the number of considered entries `≤ target`. -/
def bisectIdx (cum : List ℚ) (hi : ℕ) (target : ℚ) : ℕ :=
  (cum.take hi).countP (fun c => decide (c ≤ target))

/-- One draw of CPython `random.choices(pop, weights, ...)`: the element
at `bisect(cum_weights, random() * total, 0, len(pop) - 1)`.  The index
is below `len(pop)` by construction; the default (the head) is never
used on a nonempty population. -/
def choicesPick (pop : List ℤ) (cum : List ℚ) (r : ℚ) : ℤ :=
  pop.getD (bisectIdx cum (pop.length - 1) (r * (cum.getLastD 0))) (pop.headD 0)

/-- `random.choices(population, weights, k)`: `k` independent weighted
draws, the `j`-th driven by the oracle value `ρ j`. -/
def choicesK (pop : List ℤ) (weights : List ℚ) (k : ℕ) (ρ : ℕ → ℚ) : List ℤ :=
  (List.range k).map (fun j => choicesPick pop (cumSums weights) (ρ j))

/-- Swap two positions of a list (identity when either is out of range,
which no call site reaches). -/
def listSwap (l : List ℤ) (i j : ℕ) : List ℤ :=
  match l[i]?, l[j]? with
  | some a, some b => (l.set i b).set j a
  | _, _ => l

/-- Fisher-Yates descent of CPython `random.shuffle`: for `i` from
`len - 1` down to `1`, swap position `i` with the oracle-chosen position
`ν i % (i + 1)`. -/
def fyGo (ν : ℕ → ℕ) : ℕ → List ℤ → List ℤ
  | 0, l => l
  | i + 1, l => fyGo ν i (listSwap l (i + 1) (ν (i + 1) % (i + 2)))

/-- `random.shuffle(l)` driven by an oracle. -/
def fyShuffle (l : List ℤ) (ν : ℕ → ℕ) : List ℤ := fyGo ν (l.length - 1) l

/-! ### The demographic graph (external provider interface) -/

/-- One epoch of a deme: only the starting size is consumed. -/
structure Epoch where
  startSize : ℚ

/-- A deme of the demographic graph.  `startTime = none` models an
infinite (root) start time; `proportions = []` models absent
proportions; `sizeAt` is the provider size function `size_at`. -/
structure Deme where
  name : String
  startTime : Option ℚ
  epochs : List Epoch
  ancestors : List String
  proportions : List ℚ
  sizeAt : ℚ → ℚ

/-- A continuous migration interval; `startTime = none` models an
infinite start time. -/
structure Migration where
  source : String
  dest : String
  rate : ℚ
  startTime : Option ℚ
  endTime : ℚ

/-- An instantaneous pulse event. -/
structure Pulse where
  source : String
  dest : String
  proportion : ℚ
  time : ℚ

/-- The demographic graph. -/
structure Graph where
  demes : List Deme
  migrations : List Migration
  pulses : List Pulse

/-- `self.graph[name]`. -/
def findDeme (g : Graph) (name : String) : Option Deme :=
  g.demes.find? (fun d => d.name = name)

/-! ### Randomness oracle for a whole run -/

/-- Outcomes of every `random` call a run makes, indexed by generation,
population name and draw position (rationals for `random.random()`,
naturals reduced modulo the range for index draws). -/
structure Oracle where
  initReal : ℕ → String → ℕ → ℚ
  ancPick : ℕ → String → ℕ → ℕ → ℕ
  topPick : ℕ → String → ℕ → ℕ
  shufPick : ℕ → String → ℕ → ℕ
  introPos : ℕ → ℕ → ℕ → ℕ
  selReal : ℕ → String → ℕ → ℚ
  mutReal : ℕ → String → ℕ → ℚ
  mutPick : ℕ → String → ℕ → ℕ
  migReal : ℕ → ℕ → ℚ
  migSrc : ℕ → ℕ → ℕ → ℕ
  migDst : ℕ → ℕ → ℕ → ℕ
  pulSrc : ℕ → ℕ → ℕ → ℕ
  pulDst : ℕ → ℕ → ℕ → ℕ

/-- Well-formedness: every modeled `random.random()` value is in `[0,1)`. -/
def OracleWF (o : Oracle) : Prop :=
  (∀ t s i, 0 ≤ o.initReal t s i ∧ o.initReal t s i < 1) ∧
  (∀ t s i, 0 ≤ o.selReal t s i ∧ o.selReal t s i < 1) ∧
  (∀ t s i, 0 ≤ o.mutReal t s i ∧ o.mutReal t s i < 1) ∧
  (∀ t m, 0 ≤ o.migReal t m ∧ o.migReal t m < 1)

/-- The all-zeros oracle (every uniform draw comes out 0). -/
def oracle0 : Oracle :=
  ⟨fun _ _ _ => 0, fun _ _ _ _ => 0, fun _ _ _ => 0, fun _ _ _ => 0,
   fun _ _ _ => 0, fun _ _ _ => 0, fun _ _ _ => 0, fun _ _ _ => 0,
   fun _ _ => 0, fun _ _ _ => 0, fun _ _ _ => 0, fun _ _ _ => 0,
   fun _ _ _ => 0⟩

/-! ### Simulator configuration and mutable state -/

/-- A raw `new_alleles` config entry (fields optional, as YAML keys). -/
structure NewEntry where
  allele : Option ℤ
  population : Option String
  startTime : Option ℚ
  initialFrequency : Option ℚ

/-- A validated schedule entry, keyed by its truncated start time. -/
structure SchedEntry where
  allele : ℤ
  population : String
  initialFrequency : Option ℚ
deriving DecidableEq

/-- The immutable configuration built by `WrightFisherSim.__init__`. -/
structure Cfg where
  graph : Graph
  allPotential : List ℤ
  wildType : ℤ
  mutationRate : ℚ
  fitness : List (ℤ × ℚ)
  initialFreqs : List (ℤ × ℚ)
  allelesByTime : List (ℤ × List SchedEntry)

/-- One census observation: generation, population, its collection at
census time and the appended frequency record (instrumentation of the
stats loop, recording exactly what `run` appends to the history). -/
structure CensusEntry where
  gen : ℕ
  pname : String
  coll : List ℤ
  record : List (ℤ × ℚ)
deriving DecidableEq

/-- The mutable simulator state: the active allele list `self.alleles`,
the Population Store `self.current_populations`, `self.history`, and
two instrumentation logs (generations processed, censuses taken). -/
structure SimState where
  alleles : List ℤ
  pops : List (String × List ℤ)
  history : List (String × List (List (ℤ × ℚ)))
  genLog : List ℕ
  clog : List CensusEntry
deriving DecidableEq

deriving instance DecidableEq for Except

/-! ### Fallible fold (a Python `for` loop in which the body can raise) -/

/-- Left fold in `Except`: processes the list front to back, stopping at
the first error, exactly as a Python `for` body that can raise. -/
def foldE {α σ : Type} (f : α → σ → Except PyErr σ) : List α → σ → Except PyErr σ
  | [], s => .ok s
  | a :: l, s => match f a s with
    | .ok s1 => foldE f l s1
    | .error e => .error e

/-! ### Mutation operator (`_handle_mutations`) -/

/-- The per-individual mutation pass: individual `i` mutates when its
uniform draw `ρ i` is below the mutation rate; a wild-type carrier
becomes an oracle-chosen element of `mutants`, any other carrier
becomes the wild type. -/
def mutateGo (rate : ℚ) (wild : ℤ) (mutants : List ℤ) (ρ : ℕ → ℚ) (ν : ℕ → ℕ) :
    ℕ → List ℤ → List ℤ
  | _, [] => []
  | i, a :: rest =>
    (if ρ i < rate then (if a = wild then mutants.getD (ν i % mutants.length) 0 else wild)
     else a) :: mutateGo rate wild mutants ρ ν (i + 1) rest

/-- `WrightFisherSim._handle_mutations(pop_name)`: early return when the
rate is nonpositive, `KeyError` when the population is absent, early
return when no non-wild-type allele is active, else the in-place
per-individual pass. -/
def handleMutations (rate : ℚ) (wild : ℤ) (alleles : List ℤ)
    (pops : List (String × List ℤ)) (name : String) (ρ : ℕ → ℚ) (ν : ℕ → ℕ) :
    Except PyErr (List (String × List ℤ)) :=
  if rate ≤ 0 then .ok pops
  else
    match dget? pops name with
    | none => .error .keyError
    | some population =>
      let mutants := alleles.filter (fun a => a ≠ wild)
      if mutants.isEmpty then .ok pops
      else .ok (dset pops name (mutateGo rate wild mutants ρ ν 0 population))

/-! ### Continuous migration operator (`_handle_migration`) -/

/-- Overwrite, for each migrant in order, an oracle-chosen position of
the destination with that migrant (`dest_pop[random_idx] = m`). -/
def migWrite (dst : List ℤ) (migrants : List ℤ) (νd : ℕ → ℕ) : List ℤ :=
  (migrants.enum).foldl (fun d jm => d.set (νd jm.1 % d.length) jm.2) dst

/-- The migrant count of one migration interval: the truncated expected
count `int(len(dest) * rate)`, incremented by one when the uniform draw
`r` falls below the fractional remainder. -/
def migCount (destLen : ℕ) (rate : ℚ) (r : ℚ) : ℤ :=
  if r < (destLen : ℚ) * rate - ((pyInt ((destLen : ℚ) * rate)) : ℚ)
  then pyInt ((destLen : ℚ) * rate) + 1 else pyInt ((destLen : ℚ) * rate)

/-- `[random.choice(source_pop) for _ in range(n)]`: `n` draws with
replacement at oracle-chosen positions. -/
def drawMigrants (src : List ℤ) (n : ℕ) (νs : ℕ → ℕ) : List ℤ :=
  (List.range n).map (fun j => src.getD (νs j % src.length) 0)

/-- One migration interval of `_handle_migration`: if the interval is
active at `t` and both endpoints are present and nonempty, compute the
expected migrant count, apply stochastic rounding with the uniform draw
`r`, draw the migrants from the source and write them over oracle-chosen
destination positions. -/
def migStep (t : ℕ) (mig : Migration) (r : ℚ) (νs νd : ℕ → ℕ)
    (pops : List (String × List ℤ)) : List (String × List ℤ) :=
  if decide (mig.endTime ≤ (t : ℚ)) && mig.startTime.all (fun s => decide ((t : ℚ) ≤ s)) then
    match dget? pops mig.source, dget? pops mig.dest with
    | some sourcePop, some destPop =>
      if sourcePop.length = 0 ∨ destPop.length = 0 then pops
      else
        if migCount destPop.length mig.rate r > 0 then
          dset pops mig.dest (migWrite destPop
            (drawMigrants sourcePop (migCount destPop.length mig.rate r).toNat νs) νd)
        else pops
    | _, _ => pops
  else pops

/-- `WrightFisherSim._handle_migration(generation)`: every interval of
the graph in order (an empty list is the early return). -/
def handleMigration (g : Graph) (o : Oracle) (t : ℕ)
    (pops : List (String × List ℤ)) : List (String × List ℤ) :=
  (g.migrations.enum).foldl
    (fun ps im => migStep t im.2 (o.migReal t im.1) (o.migSrc t im.1) (o.migDst t im.1) ps)
    pops

/-! ### Pulse migration operator (`_handle_pulses`) -/

/-- One pulse of `_handle_pulses`: fires when the truncated pulse time
equals the generation; moves `int(len(dest) * proportion)` migrants with
no stochastic rounding. -/
def pulseStep (t : ℕ) (p : Pulse) (νs νd : ℕ → ℕ)
    (pops : List (String × List ℤ)) : List (String × List ℤ) :=
  if pyInt p.time = (t : ℤ) then
    match dget? pops p.source, dget? pops p.dest with
    | some sourcePop, some destPop =>
      if sourcePop.length = 0 ∨ destPop.length = 0 then pops
      else
        dset pops p.dest (migWrite destPop
          (drawMigrants sourcePop (pyInt ((destPop.length : ℚ) * p.proportion)).toNat νs) νd)
    | _, _ => pops
  else pops

/-- `WrightFisherSim._handle_pulses(generation)`. -/
def handlePulses (g : Graph) (o : Oracle) (t : ℕ)
    (pops : List (String × List ℤ)) : List (String × List ℤ) :=
  (g.pulses.enum).foldl
    (fun ps ip => pulseStep t ip.2 (o.pulSrc t ip.1) (o.pulDst t ip.1) ps)
    pops

/-! ### Lifecycle manager (`_initialize_population`) -/

/-- The per-ancestor sampling loop of `_initialize_population`: for each
`(ancestor, proportion)` pair present in the Store, extend the new
collection with `int(size * prop)` wild-type copies (empty ancestor) or
draws with replacement from the ancestor. -/
def ancGo (wild : ℤ) (size : ℚ) (pops : List (String × List ℤ)) (νa : ℕ → ℕ → ℕ) :
    ℕ → List (String × ℚ) → List ℤ → List ℤ
  | _, [], acc => acc
  | aIdx, (ancestor, prop) :: rest, acc =>
    match dget? pops ancestor with
    | none => ancGo wild size pops νa (aIdx + 1) rest acc
    | some sourcePop =>
      let count : ℕ := (pyInt (size * prop)).toNat
      if sourcePop.isEmpty then
        ancGo wild size pops νa (aIdx + 1) rest (acc ++ List.replicate count wild)
      else
        ancGo wild size pops νa (aIdx + 1) rest
          (acc ++ (List.range count).map (fun i => sourcePop.getD (νa aIdx i % sourcePop.length) 0))

/-- The `while len(new_pop_alleles) < population_size` top-up loop: read
the first ancestor from the Store (`KeyError` when absent), draw from it
when nonempty, else from the active allele list.  One element is
appended per pass, so `⌈size⌉ - len` passes suffice; the fuel is chosen
so that it runs out exactly when the guard fails. -/
def topUpGo (alleles : List ℤ) (size : ℚ) (anc0 : String)
    (pops : List (String × List ℤ)) (νt : ℕ → ℕ) :
    ℕ → ℕ → List ℤ → Except PyErr (List ℤ)
  | 0, _, acc => .ok acc
  | fuel + 1, i, acc =>
    if (acc.length : ℚ) < size then
      match dget? pops anc0 with
      | none => .error .keyError
      | some primarySource =>
        match (if primarySource.isEmpty then pyChoice alleles (νt i)
               else pyChoice primarySource (νt i)) with
        | .error e => .error e
        | .ok v => topUpGo alleles size anc0 pops νt fuel (i + 1) (acc ++ [v])
    else .ok acc

/-- The ancestor-sampling phase of `_initialize_population` on a
non-empty ancestor list: proportions default to uniform when not
supplied. -/
def ancBase (wild : ℤ) (size : ℚ) (ancestors : List String) (proportions : List ℚ)
    (pops : List (String × List ℤ)) (νa : ℕ → ℕ → ℕ) : List ℤ :=
  ancGo wild size pops νa 0
    (ancestors.zip (if proportions.isEmpty
      then List.replicate ancestors.length (1 / (ancestors.length : ℚ))
      else proportions)) []

/-- Fuel for the top-up loop: one pass appends one individual, so the
loop guard `len < size` fails exactly when this many passes are done. -/
def topFuel (size : ℚ) (base : List ℤ) : ℕ := (⌈size⌉ - (base.length : ℤ)).toNat

/-- `WrightFisherSim._initialize_population(pop_name, population_size,
ancestors, proportions)`: ancestral sampling with uniform default
proportions, top-up from the first ancestor, and a final shuffle; or a
de novo draw from the initial-frequency distribution.  Registers the new
collection and an empty history. -/
def initPopulation (cfg : Cfg) (o : Oracle) (t : ℕ) (name : String) (size : ℚ)
    (ancestors : List String) (proportions : List ℚ) (st : SimState) :
    Except PyErr SimState :=
  if ancestors.isEmpty then
    let newPop := choicesK (dkeys cfg.initialFreqs) (cfg.initialFreqs.map Prod.snd)
      (pyInt size).toNat (o.initReal t name)
    .ok { st with pops := dset st.pops name newPop, history := dset st.history name [] }
  else
    match topUpGo st.alleles size (ancestors.headD "") st.pops (o.topPick t name)
        (topFuel size (ancBase cfg.wildType size ancestors proportions st.pops (o.ancPick t name)))
        0 (ancBase cfg.wildType size ancestors proportions st.pops (o.ancPick t name)) with
    | .error e => .error e
    | .ok topped =>
      let shuffled := fyShuffle topped (o.shufPick t name)
      .ok { st with pops := dset st.pops name shuffled, history := dset st.history name [] }

/-! ### Allele introduction operator (`_handle_new_alleles`) -/

/-- One schedule entry of `_handle_new_alleles`: skip when the target
population is absent or empty; append the allele to the active list when
new; convert `max(1, int(len * freq))` individuals at sampled positions
(`random.sample` raises `ValueError` when asked for more positions than
the population has). -/
def introCount (popLen : ℕ) (freq : ℚ) : ℕ := (max 1 (pyInt ((popLen : ℚ) * freq))).toNat

/-- The in-place overwrite of the sampled positions with the new
allele. -/
def introWrite (popAlleles : List ℤ) (allele : ℤ) (n : ℕ) (νp : ℕ → ℕ) : List ℤ :=
  (((List.range n).map (fun i => νp i % popAlleles.length)).foldl
    (fun p idx => p.set idx allele) popAlleles)

def introStep (t : ℕ) (o : Oracle) (eIdx : ℕ) (e : SchedEntry) (st : SimState) :
    Except PyErr SimState :=
  match dget? st.pops e.population with
  | none => .ok st
  | some popAlleles =>
    if popAlleles.isEmpty then .ok st
    else
      if popAlleles.length < introCount popAlleles.length (e.initialFrequency.getD (1 / 20))
      then .error .valueError
      else
        .ok { st with
          alleles := if e.allele ∈ st.alleles then st.alleles else st.alleles ++ [e.allele],
          pops := dset st.pops e.population (introWrite popAlleles e.allele
            (introCount popAlleles.length (e.initialFrequency.getD (1 / 20)))
            (o.introPos t eIdx)) }

/-- `WrightFisherSim._handle_new_alleles(generation)`: the entries
scheduled for this generation, in order. -/
def handleNewAlleles (cfg : Cfg) (o : Oracle) (t : ℕ) (st : SimState) :
    Except PyErr SimState :=
  match dget? cfg.allelesByTime (t : ℤ) with
  | none => .ok st
  | some entries => foldE (fun ie s => introStep t o ie.1 ie.2 s) entries.enum st

/-! ### Census (the stats loop of `run`) -/

/-- Build a dict over `alleles` assigning `f a` to each allele, as the
dict comprehension `{a: f(a) for a in alleles}`. -/
def freqDict (alleles : List ℤ) (f : ℤ → ℚ) : List (ℤ × ℚ) :=
  alleles.foldl (fun d a => dset d a (f a)) []

/-- The frequency record of a nonempty collection:
`{a: counts.get(a, 0) / len(pop) for a in alleles}`. -/
def freqRecord (alleles : List ℤ) (pop : List ℤ) : List (ℤ × ℚ) :=
  freqDict alleles (fun a => (pop.count a : ℚ) / (pop.length : ℚ))

/-- One population of the stats loop: append the zero-filled baseline for
an empty collection, else the counted frequency record; also log the
census for the instrumentation trace. -/
def censusStep (zeroFreqs : List (ℤ × ℚ)) (t : ℕ) (name : String) (st : SimState) :
    Except PyErr SimState :=
  match dget? st.pops name with
  | none => .error .keyError
  | some popData =>
    match dget? st.history name with
    | none => .error .keyError
    | some recs =>
      .ok { st with
        history := dset st.history name (recs ++
          [if popData.isEmpty then zeroFreqs else freqRecord st.alleles popData]),
        clog := st.clog ++ [⟨t, name, popData,
          if popData.isEmpty then zeroFreqs else freqRecord st.alleles popData⟩] }

/-! ### Evolution step (selection and mutation, one population) -/

/-- One population of the evolution loop of `run`: query the target size
just inside the epoch, empty the collection when the size is nonpositive,
skip when already empty, resample with fitness weights (emptying on a
zero weight sum), then mutate. -/
def evolveStep (cfg : Cfg) (o : Oracle) (t : ℕ) (name : String) (st : SimState) :
    Except PyErr SimState :=
  match findDeme cfg.graph name with
  | none => .error .keyError
  | some deme =>
    if pyInt (deme.sizeAt (max 0 ((t : ℚ) - 1 / 100000))) ≤ 0 then
      .ok { st with pops := dset st.pops name [] }
    else
      match dget? st.pops name with
      | none => .error .keyError
      | some oldAlleles =>
        if oldAlleles.isEmpty then .ok st
        else
          match oldAlleles.mapM (fun a => dget? cfg.fitness a) with
          | none => .error .keyError
          | some weights =>
            if weights.sum = 0 then .ok { st with pops := dset st.pops name [] }
            else
              match handleMutations cfg.mutationRate cfg.wildType st.alleles
                  (dset st.pops name (choicesK oldAlleles weights
                    (pyInt (deme.sizeAt (max 0 ((t : ℚ) - 1 / 100000)))).toNat
                    (o.selReal t name))) name
                  (o.mutReal t name) (o.mutPick t name) with
              | .error e => .error e
              | .ok pops2 => .ok { st with pops := pops2 }

/-! ### Births (the demes logic of `run`) -/

/-- One deme of the birth loop: create the population when its birth
condition holds at `t` and it is not yet in the Store (`IndexError` on a
deme with no epochs, which the provider excludes). -/
def birthStep (cfg : Cfg) (o : Oracle) (startGen : ℤ) (t : ℕ) (d : Deme) (st : SimState) :
    Except PyErr SimState :=
  let isFiniteStart : Bool := match d.startTime with
    | some s => pyInt s = (t : ℤ)
    | none => false
  let isRootStart : Bool := d.startTime = none ∧ (t : ℤ) = startGen
  if isFiniteStart ∨ isRootStart then
    if (dget? st.pops d.name).isSome then .ok st
    else
      match d.epochs with
      | [] => .error .indexError
      | e :: _ => initPopulation cfg o t d.name e.startSize d.ancestors d.proportions st
  else .ok st

/-! ### The generation body and the run loop -/

/-- One iteration of the generation loop of `run`, at generation `t`:
zero-frequency baseline, births, allele introduction, evolution over a
snapshot of the Store keys, continuous migration, pulses, census.  The
processed generation is appended to the instrumentation trace. -/
def genBody (cfg : Cfg) (o : Oracle) (startGen : ℤ) (t : ℕ) (st : SimState) :
    Except PyErr SimState :=
  let st := { st with genLog := st.genLog ++ [t] }
  let zeroFreqs := freqDict st.alleles (fun _ => 0)
  match foldE (birthStep cfg o startGen t) cfg.graph.demes st with
  | .error e => .error e
  | .ok st1 =>
    match handleNewAlleles cfg o t st1 with
    | .error e => .error e
    | .ok st2 =>
      match foldE (evolveStep cfg o t) (dkeys st2.pops) st2 with
      | .error e => .error e
      | .ok st3 =>
        foldE (censusStep zeroFreqs t)
          (dkeys (handlePulses cfg.graph o t (handleMigration cfg.graph o t st3.pops)))
          { st3 with
            pops := handlePulses cfg.graph o t (handleMigration cfg.graph o t st3.pops) }

/-- The generation loop, from generation `t` down to 0 inclusive. -/
def loopGo (cfg : Cfg) (o : Oracle) (startGen : ℤ) : ℕ → SimState → Except PyErr SimState
  | 0, st => genBody cfg o startGen 0 st
  | t + 1, st =>
    match genBody cfg o startGen (t + 1) st with
    | .error e => .error e
    | .ok st1 => loopGo cfg o startGen t st1

/-- The finite start times of the graph demes. -/
def finiteStartTimes (g : Graph) : List ℚ :=
  (g.demes.map Deme.startTime).filterMap id

/-- Horizon selection of `run`: 100 when no start time is finite, else
`int(max(finite_times) + 50)`. -/
def startGeneration (g : Graph) : ℤ :=
  if finiteStartTimes g = [] then 100 else pyInt (maxList (finiteStartTimes g) + 50)

/-- `WrightFisherSim.run()`: pick the horizon and run the generation
loop down to 0 (`range(start, -1, -1)` is empty for a negative horizon).
The Python method returns `self.history`; the embedding returns the full
final state, of which the history is a field. -/
def runFull (cfg : Cfg) (o : Oracle) (st : SimState) : Except PyErr SimState :=
  let s := startGeneration cfg.graph
  if s < 0 then .ok st else loopGo cfg o s s.toNat st

/-! ### Construction (`WrightFisherSim.__init__`) -/

/-- The `initial_allele_frequency` argument: absent, a scalar, or a
dict. -/
inductive FreqSpec where
  | noSpec : FreqSpec
  | scalar : ℚ → FreqSpec
  | table : List (ℤ × ℚ) → FreqSpec

/-- `self.alleles_by_time.setdefault(t, []).append(entry)`. -/
def dAppendAt (d : List (ℤ × List SchedEntry)) (t : ℤ) (e : SchedEntry) :
    List (ℤ × List SchedEntry) :=
  match dget? d t with
  | none => dset d t [e]
  | some l => dset d t (l ++ [e])

/-- The config-parsing loop of `__init__`: validate each `new_alleles`
entry (required fields, allele in the configured list), schedule it
under its truncated start time and collect the future-allele set. -/
def parseEntries (allPotential : List ℤ) :
    List NewEntry → List (ℤ × List SchedEntry) → List ℤ →
    Except PyErr (List (ℤ × List SchedEntry) × List ℤ)
  | [], byTime, future => .ok (byTime, future)
  | e :: rest, byTime, future =>
    match e.allele, e.population, e.startTime with
    | some a, some p, some s =>
      if a ∉ allPotential then .error .valueError
      else parseEntries allPotential rest
        (dAppendAt byTime (pyInt s) ⟨a, p, e.initialFrequency⟩) (future ++ [a])
    | _, _, _ => .error .valueError

/-- Resolution of the initial frequencies over the active alleles
(`self.initial_freqs` before the closeness check): a dict argument is
filtered to active alleles; a scalar argument covers the two-allele case
with fallbacks for other active counts; an absent argument is uniform. -/
def resolveFreqs (alleles0 : List ℤ) : FreqSpec → List (ℤ × ℚ)
  | .table m => m.foldl (fun d kv => if kv.1 ∈ alleles0 then dset d kv.1 kv.2 else d) []
  | .scalar f =>
    if alleles0.length ≠ 2 then
      if alleles0.length = 1 then [(alleles0.headD 0, 1)]
      else freqDict alleles0 (fun _ => 1 / (alleles0.length : ℚ))
    else dset (dset [] (alleles0.headD 0) f) ((alleles0.getD 1 0)) (1 - f)
  | .noSpec => freqDict alleles0 (fun _ => 1 / (alleles0.length : ℚ))

/-- `alleles if alleles else [0, 1]`: the configured allele universe. -/
def allPotentialOf (allelesArg : List ℤ) : List ℤ :=
  if allelesArg.isEmpty then [0, 1] else allelesArg

/-- The active-allele list of `__init__`: the universe minus the
future-scheduled alleles, with the degenerate fallback to `[wild_type]`
(or `[0]` when even the wild type is not in the universe). -/
def activeAlleles (allPotential future : List ℤ) (wildType : ℤ) : List ℤ :=
  if (allPotential.filter (fun a => a ∉ future)).isEmpty
  then (if wildType ∈ allPotential then [wildType] else [0])
  else allPotential.filter (fun a => a ∉ future)

/-- The fitness map of `__init__`: `max(0.0, 1.0 + s)` over the whole
universe. -/
def fitnessOf (allPotential : List ℤ) (selection : List (ℤ × ℚ)) : List (ℤ × ℚ) :=
  allPotential.foldl (fun d a => dset d a (max 0 (1 + ((dget? selection a).getD 0)))) []

/-- The closeness check and normalization of `__init__`: frequencies
close to 1 are kept, otherwise they are scaled by `1.0 / total`, which
raises `ZeroDivisionError` when the resolved total is zero. -/
def normFreqs (freqs0 : List (ℤ × ℚ)) : Except PyErr (List (ℤ × ℚ)) :=
  if pyIsClose (sumV freqs0) 1 then .ok freqs0
  else if sumV freqs0 = 0 then .error .zeroDivisionError
  else .ok (freqs0.map (fun kv => (kv.1, kv.2 * (1 / sumV freqs0))))

/-- `WrightFisherSim.__init__` after the external loads: the allele
universe (`[0, 1]` for a falsy argument), schedule validation, the
active-allele list with its degenerate fallback, the fitness map over
the full universe, initial-frequency resolution and normalization. -/
def mkSim (graph : Graph) (newCfg : List NewEntry) (allelesArg : List ℤ)
    (freqSpec : FreqSpec) (mutationRate : ℚ) (wildType : ℤ)
    (selection : List (ℤ × ℚ)) : Except PyErr (Cfg × SimState) :=
  match parseEntries (allPotentialOf allelesArg) newCfg [] [] with
  | .error e => .error e
  | .ok (byTime, future) =>
    match normFreqs (resolveFreqs (activeAlleles (allPotentialOf allelesArg) future wildType)
        freqSpec) with
    | .error e => .error e
    | .ok freqs =>
      .ok (⟨graph, allPotentialOf allelesArg, wildType, mutationRate,
            fitnessOf (allPotentialOf allelesArg) selection, freqs, byTime⟩,
           ⟨activeAlleles (allPotentialOf allelesArg) future wildType, [], [], [], []⟩)

/-! ## Lemma library -/

/-! ### Dictionary lemmas -/

theorem dget?_dset {κ β : Type} [DecidableEq κ] (d : List (κ × β)) (k : κ) (v : β)
    (k' : κ) : dget? (dset d k v) k' = if k' = k then some v else dget? d k' := by
  induction d with
  | nil => simp [dset, dget?]
  | cons kv d ih =>
    obtain ⟨k0, v0⟩ := kv
    by_cases hk : k = k0
    · subst hk
      by_cases hk' : k' = k <;> simp [dset, dget?, hk']
    · by_cases hk' : k' = k0
      · subst hk'
        simp [dset, dget?, hk, Ne.symm hk]
      · simp [dset, dget?, hk, hk', ih]

theorem mem_dkeys_iff_dget? {κ β : Type} [DecidableEq κ] (d : List (κ × β)) (k : κ) :
    k ∈ dkeys d ↔ (dget? d k).isSome := by
  induction d with
  | nil => simp [dkeys, dget?]
  | cons kv d ih =>
    obtain ⟨k0, v0⟩ := kv
    by_cases hk : k = k0 <;> simp [dkeys, dget?, hk] at ih ⊢
    exact ih

theorem dget?_eq_none_of_not_mem {κ β : Type} [DecidableEq κ] {d : List (κ × β)} {k : κ}
    (h : k ∉ dkeys d) : dget? d k = none := by
  have := (mem_dkeys_iff_dget? d k).not.mp h
  cases hd : dget? d k with
  | none => rfl
  | some v => rw [hd] at this; simp at this

theorem dkeys_dset_of_mem {κ β : Type} [DecidableEq κ] {d : List (κ × β)} {k : κ} (v : β)
    (h : k ∈ dkeys d) : dkeys (dset d k v) = dkeys d := by
  induction d with
  | nil => simp [dkeys] at h
  | cons kv d ih =>
    obtain ⟨k0, v0⟩ := kv
    by_cases hk : k = k0
    · simp [dset, hk, dkeys]
    · simp only [dkeys, List.map_cons, List.mem_cons] at h
      rcases h with h1 | h1
      · exact absurd h1 hk
      · have step : dset ((k0, v0) :: d) k v = (k0, v0) :: dset d k v := by
          simp [dset, hk]
        rw [step]
        simp only [dkeys, List.map_cons]
        rw [show List.map Prod.fst (dset d k v) = dkeys (dset d k v) from rfl, ih h1]
        rfl

theorem dset_eq_self {κ β : Type} [DecidableEq κ] {d : List (κ × β)} {k : κ} {v : β}
    (h : dget? d k = some v) : dset d k v = d := by
  induction d with
  | nil => simp [dget?] at h
  | cons kv d ih =>
    obtain ⟨k0, v0⟩ := kv
    by_cases hk : k = k0
    · subst hk
      simp [dget?] at h
      simp [dset, h]
    · simp [dget?, hk] at h
      simp [dset, hk, ih h]

theorem mem_dset {κ β : Type} [DecidableEq κ] {d : List (κ × β)} {k : κ} {v : β}
    {kv : κ × β} (h : kv ∈ dset d k v) : kv ∈ d ∨ kv = (k, v) := by
  induction d with
  | nil => simp [dset] at h; simp [h]
  | cons kv0 d ih =>
    obtain ⟨k0, v0⟩ := kv0
    by_cases hk : k = k0
    · subst hk
      simp [dset] at h
      rcases h with h | h
      · right; simp [h]
      · left; simp [h]
    · simp [dset, hk] at h
      rcases h with h | h
      · left; simp [h]
      · rcases ih h with h1 | h1
        · left; simp [h1]
        · right; exact h1

/-! ### Numeric lemmas -/

theorem pyInt_of_nonneg {q : ℚ} (h : 0 ≤ q) : pyInt q = ⌊q⌋ := by
  simp [pyInt, h]

theorem pyInt_natCast (n : ℕ) : pyInt (n : ℚ) = (n : ℤ) := by
  rw [pyInt_of_nonneg (by positivity)]
  exact_mod_cast Int.floor_natCast n

theorem maxList_mem : ∀ (l : List ℚ), l ≠ [] → maxList l ∈ l := by
  intro l hl
  match l with
  | x :: xs =>
    show xs.foldl max x ∈ x :: xs
    clear hl
    induction xs generalizing x with
    | nil => simp [List.foldl]
    | cons y ys ih =>
      have hmem := ih (max x y)
      rw [List.foldl_cons]
      rcases List.mem_cons.mp hmem with h | h
      · rw [h]
        rcases max_choice x y with hm | hm <;> rw [hm]
        · exact List.mem_cons_self x (y :: ys)
        · exact List.mem_cons_of_mem x (List.mem_cons_self y ys)
      · exact List.mem_cons_of_mem x (List.mem_cons_of_mem y h)

/-! ### List helpers -/

theorem getD_mem_of_ne_nil {l : List ℤ} (h : l ≠ []) (i : ℕ) (d : ℤ) (hd : d ∈ l) :
    l.getD i d ∈ l := by
  by_cases hi : i < l.length
  · rw [List.getD_eq_getElem l d hi]
    exact List.getElem_mem hi
  · rw [List.getD_eq_default l d (le_of_not_lt hi)]
    exact hd

theorem getD_mod_mem {l : List ℤ} (h : l ≠ []) (v : ℕ) :
    l.getD (v % l.length) 0 ∈ l := by
  have hlen : 0 < l.length := List.length_pos.mpr h
  have : v % l.length < l.length := Nat.mod_lt _ hlen
  rw [List.getD_eq_getElem l 0 this]
  exact List.getElem_mem this

theorem headD_mem {α : Type} {l : List α} (h : l ≠ []) (d : α) : l.headD d ∈ l := by
  match l with
  | x :: xs => simp [List.headD]

theorem choicesPick_mem {pop : List ℤ} (h : pop ≠ []) (cum : List ℚ) (r : ℚ) :
    choicesPick pop cum r ∈ pop :=
  getD_mem_of_ne_nil h _ _ (headD_mem h 0)

theorem choicesK_length (pop : List ℤ) (w : List ℚ) (k : ℕ) (ρ : ℕ → ℚ) :
    (choicesK pop w k ρ).length = k := by
  simp [choicesK]

theorem choicesK_mem {pop : List ℤ} (h : pop ≠ []) (w : List ℚ) (k : ℕ) (ρ : ℕ → ℚ)
    {a : ℤ} (ha : a ∈ choicesK pop w k ρ) : a ∈ pop := by
  simp [choicesK] at ha
  obtain ⟨j, _, hj⟩ := ha
  rw [← hj]
  exact choicesPick_mem h _ _

theorem pyChoice_mem {l : List ℤ} {v : ℕ} {x : ℤ} (h : pyChoice l v = .ok x) : x ∈ l := by
  unfold pyChoice at h
  by_cases hl : l.isEmpty
  · rw [if_pos hl] at h
    exact absurd h (by simp)
  · rw [if_neg hl] at h
    have hx : l.getD (v % l.length) 0 = x := by injection h
    rw [← hx]
    exact getD_mod_mem (by simpa [List.isEmpty_iff] using hl) v

theorem listSwap_mem {l : List ℤ} {i j : ℕ} {a : ℤ} (h : a ∈ listSwap l i j) : a ∈ l := by
  unfold listSwap at h
  cases hi : l[i]? with
  | none => rw [hi] at h; exact h
  | some x =>
    cases hj : l[j]? with
    | none => rw [hi, hj] at h; exact h
    | some y =>
      rw [hi, hj] at h
      rcases List.mem_or_eq_of_mem_set h with h1 | h1
      · rcases List.mem_or_eq_of_mem_set h1 with h2 | h2
        · exact h2
        · subst h2; exact List.getElem?_mem hj
      · subst h1; exact List.getElem?_mem hi

theorem fyGo_mem (ν : ℕ → ℕ) : ∀ (n : ℕ) (l : List ℤ) (a : ℤ), a ∈ fyGo ν n l → a ∈ l := by
  intro n
  induction n with
  | zero => intro l a h; exact h
  | succ m ih =>
    intro l a h
    exact listSwap_mem (ih _ a h)

theorem fyShuffle_mem {l : List ℤ} {a : ℤ} (ν : ℕ → ℕ) (h : a ∈ fyShuffle l ν) : a ∈ l :=
  fyGo_mem ν _ l a h

/-! ### Frequency-dict lemmas -/

theorem freqDict_fold_dget? (f : ℤ → ℚ) :
    ∀ (alleles : List ℤ) (d0 : List (ℤ × ℚ)) (x : ℤ),
      dget? (alleles.foldl (fun d a => dset d a (f a)) d0) x =
        if x ∈ alleles then some (f x) else dget? d0 x := by
  intro alleles
  induction alleles with
  | nil => intro d0 x; simp
  | cons a l ih =>
    intro d0 x
    rw [List.foldl_cons, ih]
    by_cases hx : x ∈ l
    · simp [hx]
    · by_cases hxa : x = a
      · subst hxa
        simp [hx, dget?_dset]
      · simp [hx, hxa, dget?_dset]

theorem dget?_freqDict (alleles : List ℤ) (f : ℤ → ℚ) (x : ℤ) :
    dget? (freqDict alleles f) x = if x ∈ alleles then some (f x) else none := by
  rw [freqDict, freqDict_fold_dget? f alleles [] x]
  rfl

theorem freqDict_fold_values (f : ℤ → ℚ) :
    ∀ (alleles : List ℤ) (d0 : List (ℤ × ℚ)), (∀ kv ∈ d0, kv.2 = f kv.1) →
      ∀ kv ∈ alleles.foldl (fun d a => dset d a (f a)) d0, kv.2 = f kv.1 := by
  intro alleles
  induction alleles with
  | nil => intro d0 h0 kv hkv; exact h0 kv hkv
  | cons a l ih =>
    intro d0 h0 kv hkv
    rw [List.foldl_cons] at hkv
    refine ih (dset d0 a (f a)) ?_ kv hkv
    intro kv1 hkv1
    rcases mem_dset hkv1 with h1 | h1
    · exact h0 kv1 h1
    · simp [h1]

theorem freqDict_values (alleles : List ℤ) (f : ℤ → ℚ) :
    ∀ kv ∈ freqDict alleles f, kv.2 = f kv.1 := by
  refine freqDict_fold_values f alleles [] ?_
  intro kv hkv
  simp at hkv

theorem dkeys_nodup_dset {κ β : Type} [DecidableEq κ] {d : List (κ × β)} {k : κ} {v : β}
    (h : (dkeys d).Nodup) : (dkeys (dset d k v)).Nodup := by
  by_cases hk : k ∈ dkeys d
  · rw [dkeys_dset_of_mem v hk]; exact h
  · have : dkeys (dset d k v) = dkeys d ++ [k] := by
      clear h
      induction d with
      | nil => simp [dset, dkeys]
      | cons kv0 d ih =>
        obtain ⟨k0, v0⟩ := kv0
        simp only [dkeys, List.map_cons, List.mem_cons] at hk
        push_neg at hk
        have step : dset ((k0, v0) :: d) k v = (k0, v0) :: dset d k v := by
          simp [dset, hk.1]
        rw [step]
        simp only [dkeys, List.map_cons, List.cons_append, List.cons.injEq, true_and]
        exact ih hk.2
    rw [this]
    simp [List.nodup_append, h, hk]

theorem dkeys_freqDict_nodup (alleles : List ℤ) (f : ℤ → ℚ) :
    (dkeys (freqDict alleles f)).Nodup := by
  rw [freqDict]
  have : ∀ (l : List ℤ) (d0 : List (ℤ × ℚ)), (dkeys d0).Nodup →
      (dkeys (l.foldl (fun d a => dset d a (f a)) d0)).Nodup := by
    intro l
    induction l with
    | nil => intro d0 h; exact h
    | cons a l ih =>
      intro d0 h
      rw [List.foldl_cons]
      exact ih _ (dkeys_nodup_dset h)
  refine this alleles [] ?_
  simp [dkeys]

theorem mem_dkeys_freqDict (alleles : List ℤ) (f : ℤ → ℚ) (x : ℤ) :
    x ∈ dkeys (freqDict alleles f) ↔ x ∈ alleles := by
  rw [mem_dkeys_iff_dget?, dget?_freqDict]
  by_cases hx : x ∈ alleles <;> simp [hx]

/-! ### Counting and sum lemmas -/

theorem sumV_eq_map_keys {d : List (ℤ × ℚ)} {f : ℤ → ℚ} (h : ∀ kv ∈ d, kv.2 = f kv.1) :
    sumV d = ((dkeys d).map f).sum := by
  induction d with
  | nil => simp [sumV, dkeys]
  | cons kv d ih =>
    simp only [sumV, dkeys, List.map_cons, List.sum_cons] at *
    rw [h kv (List.mem_cons_self kv d), ih (fun kv1 h1 => h kv1 (List.mem_cons_of_mem kv h1))]

theorem sum_map_indicator_zero {u : List ℤ} {b : ℤ} (h : ∀ a ∈ u, a ≠ b) :
    (u.map (fun a => if a = b then (1 : ℚ) else 0)).sum = 0 := by
  induction u with
  | nil => simp
  | cons y v ih =>
    simp only [List.map_cons, List.sum_cons]
    rw [if_neg (h y (List.mem_cons_self y v)), ih (fun a ha => h a (List.mem_cons_of_mem y ha))]
    simp

theorem sum_map_indicator {u : List ℤ} {b : ℤ} (hu : u.Nodup) (hb : b ∈ u) :
    (u.map (fun a => if a = b then (1 : ℚ) else 0)).sum = 1 := by
  induction u with
  | nil => simp at hb
  | cons x u ih =>
    simp only [List.map_cons, List.sum_cons]
    rcases List.mem_cons.mp hb with h | h
    · subst h
      rw [if_pos rfl]
      have hnot : ∀ a ∈ u, a ≠ b := by
        intro a ha hab
        exact (List.nodup_cons.mp hu).1 (hab ▸ ha)
      rw [sum_map_indicator_zero hnot]
      simp
    · have hx : x ≠ b := fun hxb => (List.nodup_cons.mp hu).1 (hxb ▸ h)
      rw [if_neg hx, ih (List.nodup_cons.mp hu).2 h]
      simp

theorem sum_map_count {u : List ℤ} (hu : u.Nodup) :
    ∀ (l : List ℤ), (∀ a ∈ l, a ∈ u) → (u.map (fun a => (l.count a : ℚ))).sum = l.length := by
  intro l
  induction l with
  | nil => simp
  | cons b l ih =>
    intro hsub
    have hcnt : ∀ a : ℤ, ((b :: l).count a : ℚ) =
        (l.count a : ℚ) + (if a = b then (1 : ℚ) else 0) := by
      intro a
      rw [List.count_cons]
      by_cases hab : a = b
      · simp [hab]
      · simp [hab, Ne.symm hab]
    have : (u.map (fun a => ((b :: l).count a : ℚ))).sum =
        (u.map (fun a => (l.count a : ℚ))).sum +
        (u.map (fun a => if a = b then (1 : ℚ) else 0)).sum := by
      rw [← List.sum_map_add]
      congr 1
      exact List.map_congr_left (fun a _ => hcnt a)
    rw [this, ih (fun a ha => hsub a (List.mem_cons_of_mem b ha)),
        sum_map_indicator hu (hsub b (List.mem_cons_self b l))]
    push_cast [List.length_cons]
    ring

theorem sum_map_div (u : List ℤ) (g : ℤ → ℚ) (c : ℚ) :
    (u.map (fun a => g a / c)).sum = (u.map g).sum / c := by
  induction u with
  | nil => simp
  | cons x u ih => simp [List.map_cons, List.sum_cons, ih, add_div]

/-- The central census lemma: the frequency record of a nonempty
collection whose individuals all carry active alleles sums to 1. -/
theorem freqRecord_sum {alleles pop : List ℤ} (hne : pop ≠ [])
    (hsub : ∀ a ∈ pop, a ∈ alleles) : sumV (freqRecord alleles pop) = 1 := by
  have hval : ∀ kv ∈ freqRecord alleles pop,
      kv.2 = (fun a => (pop.count a : ℚ) / (pop.length : ℚ)) kv.1 :=
    freqDict_values alleles _
  rw [@sumV_eq_map_keys (freqRecord alleles pop)
    (fun a => (pop.count a : ℚ) / (pop.length : ℚ)) hval]
  have hnodup : (dkeys (freqRecord alleles pop)).Nodup := dkeys_freqDict_nodup alleles _
  have hsub2 : ∀ a ∈ pop, a ∈ dkeys (freqRecord alleles pop) := by
    intro a ha
    exact (mem_dkeys_freqDict alleles _ a).mpr (hsub a ha)
  rw [sum_map_div _ (fun a => (pop.count a : ℚ)) (pop.length : ℚ),
      sum_map_count hnodup pop hsub2]
  have hlen : (pop.length : ℚ) ≠ 0 := by
    simp [List.length_eq_zero, hne]
  field_simp

/-! ### Fold preservation -/

theorem foldE_pres {α σ : Type} {P : σ → Prop} {f : α → σ → Except PyErr σ}
    (hstep : ∀ a s s1, P s → f a s = .ok s1 → P s1) :
    ∀ (l : List α) (s s1 : σ), P s → foldE f l s = .ok s1 → P s1 := by
  intro l
  induction l with
  | nil =>
    intro s s1 hP h
    simp only [foldE] at h
    injection h with h
    exact h ▸ hP
  | cons a l ih =>
    intro s s1 hP h
    simp only [foldE] at h
    cases hf : f a s with
    | error e => rw [hf] at h; exact absurd h (by simp)
    | ok s2 =>
      rw [hf] at h
      exact ih s2 s1 (hstep a s s2 hP hf) h

theorem foldl_pres {α σ : Type} {P : σ → Prop} {f : σ → α → σ}
    (hstep : ∀ a s, P s → P (f s a)) :
    ∀ (l : List α) (s : σ), P s → P (l.foldl f s) := by
  intro l
  induction l with
  | nil => intro s hP; exact hP
  | cons a l ih => intro s hP; exact ih _ (hstep a s hP)

/-! ### Store membership invariant -/

/-- Every individual of every population of the Store carries an allele
from `S`. -/
def PopsIn (S : List ℤ) (pops : List (String × List ℤ)) : Prop :=
  ∀ name p, dget? pops name = some p → ∀ a ∈ p, a ∈ S

theorem PopsIn.mono {S S1 : List ℤ} {pops : List (String × List ℤ)}
    (h : PopsIn S pops) (hS : ∀ a ∈ S, a ∈ S1) : PopsIn S1 pops :=
  fun name p hp a ha => hS a (h name p hp a ha)

theorem PopsIn.dset {S : List ℤ} {pops : List (String × List ℤ)}
    (h : PopsIn S pops) {name : String} {newP : List ℤ} (hnew : ∀ a ∈ newP, a ∈ S) :
    PopsIn S (dset pops name newP) := by
  intro n p hp a ha
  rw [dget?_dset] at hp
  by_cases hn : n = name
  · rw [if_pos hn] at hp
    injection hp with hp
    exact hnew a (hp ▸ ha)
  · rw [if_neg hn] at hp
    exact h n p hp a ha

/-! ### Operator membership lemmas -/

theorem migWrite_length (dst migrants : List ℤ) (νd : ℕ → ℕ) :
    (migWrite dst migrants νd).length = dst.length := by
  rw [migWrite]
  refine @foldl_pres _ _ (fun d => d.length = dst.length) _ ?_ migrants.enum dst rfl
  intro jm d hd
  rw [List.length_set, hd]

theorem migWrite_mem {dst migrants : List ℤ} (νd : ℕ → ℕ) {a : ℤ}
    (h : a ∈ migWrite dst migrants νd) : a ∈ dst ∨ a ∈ migrants := by
  rw [migWrite] at h
  have : ∀ (l : List (ℕ × ℤ)) (d : List ℤ), (∀ jm ∈ l, jm.2 ∈ migrants) →
      (∀ x ∈ d, x ∈ dst ∨ x ∈ migrants) →
      ∀ x ∈ l.foldl (fun d jm => d.set (νd jm.1 % d.length) jm.2) d, x ∈ dst ∨ x ∈ migrants := by
    intro l
    induction l with
    | nil => intro d _ hd x hx; exact hd x hx
    | cons jm l ih =>
      intro d hl hd x hx
      rw [List.foldl_cons] at hx
      refine ih _ (fun q hq => hl q (List.mem_cons_of_mem jm hq)) ?_ x hx
      intro y hy
      rcases List.mem_or_eq_of_mem_set hy with h1 | h1
      · exact hd y h1
      · right
        exact h1 ▸ hl jm (List.mem_cons_self jm l)
  refine this migrants.enum dst ?_ (fun x hx => Or.inl hx) a h
  intro jm hjm
  exact List.snd_mem_of_mem_enum hjm

theorem mutateGo_length (rate : ℚ) (wild : ℤ) (mutants : List ℤ) (ρ : ℕ → ℚ) (ν : ℕ → ℕ) :
    ∀ (i : ℕ) (pop : List ℤ), (mutateGo rate wild mutants ρ ν i pop).length = pop.length := by
  intro i pop
  induction pop generalizing i with
  | nil => rfl
  | cons a rest ih => simp [mutateGo, ih]

theorem mutateGo_mem {rate : ℚ} {wild : ℤ} {mutants : List ℤ} {ρ : ℕ → ℚ} {ν : ℕ → ℕ}
    (hm : mutants ≠ []) :
    ∀ {i : ℕ} {pop : List ℤ} {x : ℤ}, x ∈ mutateGo rate wild mutants ρ ν i pop →
      x ∈ pop ∨ x = wild ∨ x ∈ mutants := by
  intro i pop
  induction pop generalizing i with
  | nil => intro x hx; exact absurd hx (by simp [mutateGo])
  | cons a rest ih =>
    intro x hx
    simp only [mutateGo, List.mem_cons] at hx
    rcases hx with hx | hx
    · by_cases hρ : ρ i < rate
      · rw [if_pos hρ] at hx
        by_cases ha : a = wild
        · rw [if_pos ha] at hx
          right; right
          exact hx ▸ getD_mod_mem hm (ν i)
        · rw [if_neg ha] at hx
          right; left
          exact hx
      · rw [if_neg hρ] at hx
        left
        exact hx ▸ List.mem_cons_self a rest
    · rcases ih hx with h | h
      · exact Or.inl (List.mem_cons_of_mem a h)
      · exact Or.inr h

theorem replicate_mem {n : ℕ} {x a : ℤ} (h : a ∈ List.replicate n x) : a = x :=
  (List.eq_of_mem_replicate h)

/-! ### Lifecycle-manager lemmas -/

theorem pyChoice_ok {l : List ℤ} (h : l ≠ []) (v : ℕ) :
    pyChoice l v = .ok (l.getD (v % l.length) 0) := by
  simp [pyChoice, h]

theorem topUpGo_ok {alleles : List ℤ} {pops : List (String × List ℤ)} {anc0 : String}
    (h0 : anc0 ∈ dkeys pops) (ha : alleles ≠ []) (size : ℚ) (νt : ℕ → ℕ) :
    ∀ (fuel i : ℕ) (acc : List ℤ), ∃ l, topUpGo alleles size anc0 pops νt fuel i acc = .ok l := by
  intro fuel
  induction fuel with
  | zero => intro i acc; exact ⟨acc, rfl⟩
  | succ f ih =>
    intro i acc
    rw [topUpGo]
    by_cases hguard : (acc.length : ℚ) < size
    · rw [if_pos hguard]
      have hsome := (mem_dkeys_iff_dget? pops anc0).mp h0
      cases hp : dget? pops anc0 with
      | none => rw [hp] at hsome; simp at hsome
      | some primary =>
        dsimp only
        by_cases hpe : primary.isEmpty = true
        · rw [if_pos hpe, pyChoice_ok ha (νt i)]
          exact ih (i + 1) (acc ++ [alleles.getD (νt i % alleles.length) 0])
        · have hpne : primary ≠ [] := by simpa [List.isEmpty_iff] using hpe
          rw [if_neg hpe, pyChoice_ok hpne (νt i)]
          exact ih (i + 1) (acc ++ [primary.getD (νt i % primary.length) 0])
    · rw [if_neg hguard]
      exact ⟨acc, rfl⟩

theorem topUpGo_ne_error {alleles : List ℤ} {pops : List (String × List ℤ)}
    {anc0 : String} (h0 : anc0 ∈ dkeys pops) (ha : alleles ≠ []) (size : ℚ) (νt : ℕ → ℕ)
    (fuel i : ℕ) (acc : List ℤ) (e : PyErr) :
    topUpGo alleles size anc0 pops νt fuel i acc ≠ .error e := by
  obtain ⟨l, hl⟩ := topUpGo_ok h0 ha size νt fuel i acc
  rw [hl]
  simp

theorem ancGo_absent {wild : ℤ} {size : ℚ} {pops : List (String × List ℤ)} {νa : ℕ → ℕ → ℕ} :
    ∀ (l : List (String × ℚ)) (i : ℕ) (acc : List ℤ), (∀ pr ∈ l, pr.1 ∉ dkeys pops) →
      ancGo wild size pops νa i l acc = acc := by
  intro l
  induction l with
  | nil => intro i acc _; rfl
  | cons pr rest ih =>
    intro i acc habs
    obtain ⟨ancestor, prop⟩ := pr
    rw [ancGo]
    rw [dget?_eq_none_of_not_mem (habs (ancestor, prop) (List.mem_cons_self _ _))]
    exact ih (i + 1) acc (fun q hq => habs q (List.mem_cons_of_mem _ hq))

/-! ## Claim C7 -/

/-- Claim C7 (amended): `_initialize_population` called with a non-empty
ancestor list terminates normally whenever the first listed ancestor is
present in the Store (even with an empty collection) and the active
allele list is non-empty; but when every listed ancestor is absent from
the Store and the target size is positive, the top-up step that reads
the first ancestor collection raises `KeyError`, so not every operation
reachable from `run()` is raise-free. -/
theorem C7_amended (cfg : Cfg) (o : Oracle) (t : ℕ) (name : String) (size : ℚ)
    (ancestors : List String) (proportions : List ℚ) (st : SimState) :
    (ancestors ≠ [] → ancestors.headD "" ∈ dkeys st.pops → st.alleles ≠ [] →
      ∃ st1, initPopulation cfg o t name size ancestors proportions st = .ok st1) ∧
    (ancestors ≠ [] → (∀ a ∈ ancestors, a ∉ dkeys st.pops) → 0 < size →
      initPopulation cfg o t name size ancestors proportions st = .error .keyError) := by
  constructor
  · intro hne hhead halleles
    rw [initPopulation]
    rw [if_neg (by simpa [List.isEmpty_iff] using hne)]
    split
    · rename_i e heq
      exact absurd heq (topUpGo_ne_error hhead halleles size (o.topPick t name) _ _ _ e)
    · exact ⟨_, rfl⟩
  · intro hne habs hsize
    rw [initPopulation]
    rw [if_neg (by simpa [List.isEmpty_iff] using hne)]
    have hbase : ancBase cfg.wildType size ancestors proportions st.pops (o.ancPick t name)
        = [] := by
      refine ancGo_absent _ 0 [] ?_
      intro pr hpr
      exact habs pr.1 (List.of_mem_zip hpr).1
    rw [hbase]
    have hfuel : topFuel size [] ≠ 0 := by
      have hc : 0 < ⌈size⌉ := Int.ceil_pos.mpr hsize
      unfold topFuel
      simp only [List.length_nil, Nat.cast_zero, sub_zero]
      omega
    cases hf : topFuel size [] with
    | zero => exact absurd hf hfuel
    | succ f =>
      rw [topUpGo]
      rw [if_pos (by simpa using hsize)]
      rw [dget?_eq_none_of_not_mem (habs (ancestors.headD "") (headD_mem hne ""))]

/-- Claim C7 counterexample configuration: an empty Store. -/
def cfgC7 : Cfg := ⟨⟨[], [], []⟩, [0, 1], 0, 0, [(0, 1), (1, 1)], [(0, 1/2), (1, 1/2)], []⟩

/-- Claim C7 counterexample state: active alleles `[0, 1]`, empty Store. -/
def stC7 : SimState := ⟨[0, 1], [], [], [], []⟩

/-- Claim C7 counterexample: `_initialize_population` with ancestor list
`["A"]`, target size 5 and an empty Store (so the new collection falls
short and the first listed ancestor is absent) raises `KeyError` instead
of terminating normally. -/
theorem C7_counterexample :
    initPopulation cfgC7 oracle0 0 "B" 5 ["A"] [] stC7 = .error .keyError := by
  rfl

/-- Claim C7 witness state: ancestor `"A"` present with an empty
collection, so the top-up draws from the active allele list. -/
def stC7w : SimState := ⟨[0, 1], [("A", [])], [], [], []⟩

/-- Claim C7 witness: both parts of the amended claim at concrete
inputs. -/
theorem C7_witness :
    (∃ st1, initPopulation cfgC7 oracle0 0 "B" 5 ["A"] [] stC7w = .ok st1) ∧
    initPopulation cfgC7 oracle0 0 "B" 5 ["A"] [] stC7 = .error .keyError := by
  constructor
  · exact (C7_amended cfgC7 oracle0 0 "B" 5 ["A"] [] stC7w).1 (by simp)
      (by simp [stC7w, dkeys]) (by simp [stC7w])
  · exact (C7_amended cfgC7 oracle0 0 "B" 5 ["A"] [] stC7).2 (by simp)
      (by simp [stC7, dkeys]) (by norm_num)

/-! ### Construction lemmas -/

/-- A `new_alleles` entry that construction rejects: a missing required
field, or an allele outside the configured universe. -/
def BadEntry (allPotential : List ℤ) (e : NewEntry) : Prop :=
  e.allele = none ∨ e.population = none ∨ e.startTime = none ∨
    (∃ a, e.allele = some a ∧ a ∉ allPotential)

theorem parse_good {AP : List ℤ} :
    ∀ (l : List NewEntry), (∀ e ∈ l, ¬ BadEntry AP e) →
      ∀ (bt : List (ℤ × List SchedEntry)) (f : List ℤ),
        ∃ bt1, parseEntries AP l bt f = .ok (bt1, f ++ l.filterMap NewEntry.allele) := by
  intro l
  induction l with
  | nil => intro _ bt f; exact ⟨bt, by simp [parseEntries]⟩
  | cons e rest ih =>
    intro hgood bt f
    have hne := hgood e (List.mem_cons_self e rest)
    rw [BadEntry] at hne
    push_neg at hne
    obtain ⟨h1, h2, h3, h4⟩ := hne
    cases ha : e.allele with
    | none => exact absurd ha h1
    | some a =>
      cases hp : e.population with
      | none => exact absurd hp h2
      | some p =>
        cases hs : e.startTime with
        | none => exact absurd hs h3
        | some st =>
          have hmem : a ∈ AP := by
            by_contra hmem
            exact hmem (h4 a ha)
          rw [parseEntries, ha, hp, hs]
          dsimp only
          rw [if_neg (by simpa using hmem)]
          obtain ⟨bt1, hbt⟩ := ih (fun x hx => hgood x (List.mem_cons_of_mem e hx))
            (dAppendAt bt (pyInt st) ⟨a, p, e.initialFrequency⟩) (f ++ [a])
          refine ⟨bt1, ?_⟩
          rw [hbt]
          simp [List.filterMap_cons, ha]

theorem parse_error_iff {AP : List ℤ} :
    ∀ (l : List NewEntry) (bt : List (ℤ × List SchedEntry)) (f : List ℤ) (er : PyErr),
      parseEntries AP l bt f = .error er ↔ (er = .valueError ∧ ∃ e ∈ l, BadEntry AP e) := by
  intro l
  induction l with
  | nil =>
    intro bt f er
    simp [parseEntries]
  | cons e rest ih =>
    intro bt f er
    rw [parseEntries]
    cases ha : e.allele with
    | none =>
      dsimp only
      constructor
      · intro h
        injection h with h
        exact ⟨h.symm, e, List.mem_cons_self e rest, Or.inl ha⟩
      · rintro ⟨her, -⟩
        rw [her]
    | some a =>
      cases hp : e.population with
      | none =>
        dsimp only
        constructor
        · intro h
          injection h with h
          exact ⟨h.symm, e, List.mem_cons_self e rest, Or.inr (Or.inl hp)⟩
        · rintro ⟨her, -⟩
          rw [her]
      | some p =>
        cases hs : e.startTime with
        | none =>
          dsimp only
          constructor
          · intro h
            injection h with h
            exact ⟨h.symm, e, List.mem_cons_self e rest, Or.inr (Or.inr (Or.inl hs))⟩
          · rintro ⟨her, -⟩
            rw [her]
        | some st =>
          dsimp only
          by_cases hmem : a ∈ AP
          · rw [if_neg (by simpa using hmem)]
            rw [ih]
            constructor
            · rintro ⟨her, x, hx, hbad⟩
              exact ⟨her, x, List.mem_cons_of_mem e hx, hbad⟩
            · rintro ⟨her, x, hx, hbad⟩
              refine ⟨her, ?_⟩
              rcases List.mem_cons.mp hx with h | h
              · subst h
                rcases hbad with hb | hb | hb | hb
                · exact absurd ha (hb ▸ by simp)
                · exact absurd hp (hb ▸ by simp)
                · exact absurd hs (hb ▸ by simp)
                · obtain ⟨a1, ha1, hnot⟩ := hb
                  rw [ha] at ha1
                  injection ha1 with ha1
                  exact absurd (ha1 ▸ hmem) hnot
              · exact ⟨x, h, hbad⟩
          · rw [if_pos (by simpa using hmem)]
            constructor
            · intro h
              injection h with h
              exact ⟨h.symm, e, List.mem_cons_self e rest,
                Or.inr (Or.inr (Or.inr ⟨a, ha, hmem⟩))⟩
            · rintro ⟨her, -⟩
              rw [her]

theorem normFreqs_error {f : List (ℤ × ℚ)} {e : PyErr} (h : normFreqs f = .error e) :
    e = .zeroDivisionError ∧ sumV f = 0 := by
  rw [normFreqs] at h
  by_cases h1 : pyIsClose (sumV f) 1
  · rw [if_pos h1] at h
    exact absurd h (by simp)
  · rw [if_neg h1] at h
    by_cases h2 : sumV f = 0
    · rw [if_pos h2] at h
      injection h with h
      exact ⟨h.symm, h2⟩
    · rw [if_neg h2] at h
      exact absurd h (by simp)

theorem normFreqs_zero (h : pyIsClose 0 1 = false) {f : List (ℤ × ℚ)} (h0 : sumV f = 0) :
    normFreqs f = .error .zeroDivisionError := by
  rw [normFreqs, h0]
  rw [if_neg (by simp [h]), if_pos rfl]

theorem normFreqs_ok {f : List (ℤ × ℚ)} (h : sumV f ≠ 0) : ∃ r, normFreqs f = .ok r := by
  rw [normFreqs]
  by_cases h1 : pyIsClose (sumV f) 1
  · rw [if_pos h1]
    exact ⟨f, rfl⟩
  · rw [if_neg h1, if_neg h]
    exact ⟨_, rfl⟩

/-! ## Claim C6 -/

/-- Claim C6 (amended): construction raises `ValueError` if and only if
some `new_alleles` entry is missing a required field or references an
allele outside the configured universe.  Initial frequencies that do not
sum to about 1.0 are normalized rather than rejected only when their
resolved sum is nonzero: a zero resolved sum raises `ZeroDivisionError`
(the `1.0 / total` scale factor), so construction can also fail on a
frequency specification whose resolved sum is zero. -/
theorem C6_amended (graph : Graph) (newCfg : List NewEntry) (allelesArg : List ℤ)
    (freqSpec : FreqSpec) (mutationRate : ℚ) (wildType : ℤ) (selection : List (ℤ × ℚ)) :
    (mkSim graph newCfg allelesArg freqSpec mutationRate wildType selection
        = .error .valueError ↔ ∃ e ∈ newCfg, BadEntry (allPotentialOf allelesArg) e) ∧
    ((∀ e ∈ newCfg, ¬ BadEntry (allPotentialOf allelesArg) e) →
      (mkSim graph newCfg allelesArg freqSpec mutationRate wildType selection
          = .error .zeroDivisionError ↔
        sumV (resolveFreqs (activeAlleles (allPotentialOf allelesArg)
          (newCfg.filterMap NewEntry.allele) wildType) freqSpec) = 0)) ∧
    ((∀ e ∈ newCfg, ¬ BadEntry (allPotentialOf allelesArg) e) →
      sumV (resolveFreqs (activeAlleles (allPotentialOf allelesArg)
        (newCfg.filterMap NewEntry.allele) wildType) freqSpec) ≠ 0 →
      ∃ pr, mkSim graph newCfg allelesArg freqSpec mutationRate wildType selection
        = .ok pr) := by
  have hclose : pyIsClose 0 1 = false := by with_unfolding_all decide
  refine ⟨?_, ?_, ?_⟩
  · constructor
    · intro h
      rw [mkSim] at h
      cases hp : parseEntries (allPotentialOf allelesArg) newCfg [] [] with
      | error e =>
        obtain ⟨her, hbad⟩ := (parse_error_iff newCfg [] [] e).mp hp
        exact hbad
      | ok r =>
        obtain ⟨byTime, future⟩ := r
        rw [hp] at h
        simp only at h
        cases hn : normFreqs (resolveFreqs
            (activeAlleles (allPotentialOf allelesArg) future wildType) freqSpec) with
        | error e2 =>
          rw [hn] at h
          injection h with h
          rw [(normFreqs_error hn).1] at h
          exact absurd h (by simp)
        | ok fr =>
          rw [hn] at h
          exact absurd h (by simp)
    · rintro ⟨e, he, hbad⟩
      rw [mkSim]
      have : parseEntries (allPotentialOf allelesArg) newCfg [] [] = .error .valueError :=
        (parse_error_iff newCfg [] [] .valueError).mpr ⟨rfl, e, he, hbad⟩
      rw [this]
  · intro hgood
    obtain ⟨bt1, hp⟩ := parse_good newCfg hgood [] []
    rw [mkSim, hp]
    simp only [List.nil_append]
    constructor
    · intro h
      cases hn : normFreqs (resolveFreqs (activeAlleles (allPotentialOf allelesArg)
          (newCfg.filterMap NewEntry.allele) wildType) freqSpec) with
      | error e2 =>
        exact (normFreqs_error hn).2
      | ok fr =>
        rw [hn] at h
        exact absurd h (by simp)
    · intro h0
      rw [normFreqs_zero hclose h0]
  · intro hgood hne
    obtain ⟨bt1, hp⟩ := parse_good newCfg hgood [] []
    rw [mkSim, hp]
    simp only [List.nil_append]
    obtain ⟨r, hr⟩ := normFreqs_ok hne
    rw [hr]
    exact ⟨_, rfl⟩

/-- Claim C6 counterexample: with no `new_alleles` entries at all (so no
missing field and no unknown allele) and a dict initial-frequency
argument whose only key is outside the active alleles, the resolved
frequencies sum to 0 and construction raises `ZeroDivisionError`: a
validation failure the claim's "if and only if" does not allow, and a
frequency specification that is rejected rather than normalized. -/
theorem C6_counterexample :
    mkSim ⟨[], [], []⟩ [] [0, 1] (.table [(5, 1/2)]) 0 0 [] = .error .zeroDivisionError := by
  with_unfolding_all rfl

/-- Claim C6 witness: the amended characterization at concrete inputs:
a missing-field entry raises `ValueError`, and a well-formed scalar
construction succeeds. -/
theorem C6_witness :
    mkSim ⟨[], [], []⟩ [⟨none, none, none, none⟩] [0, 1] (.scalar (1/2)) 0 0 []
      = .error .valueError ∧
    (∃ pr, mkSim ⟨[], [], []⟩ [] [0, 1] (.scalar (1/2)) 0 0 [] = .ok pr) := by
  constructor
  · exact (C6_amended ⟨[], [], []⟩ [⟨none, none, none, none⟩] [0, 1] (.scalar (1/2))
      0 0 []).1.mpr ⟨⟨none, none, none, none⟩, by simp, Or.inl rfl⟩
  · exact (C6_amended ⟨[], [], []⟩ [] [0, 1] (.scalar (1/2)) 0 0 []).2.2
      (by simp) (by with_unfolding_all decide)

/-! ## Claim C3 -/

theorem mutateGo_getD (rate : ℚ) (wild : ℤ) (mutants : List ℤ) (ρ : ℕ → ℚ) (ν : ℕ → ℕ) :
    ∀ (pop : List ℤ) (i0 i : ℕ), i < pop.length →
      (mutateGo rate wild mutants ρ ν i0 pop).getD i 0 =
        if ρ (i0 + i) < rate then
          (if pop.getD i 0 = wild then mutants.getD (ν (i0 + i) % mutants.length) 0 else wild)
        else pop.getD i 0 := by
  intro pop
  induction pop with
  | nil => intro i0 i hi; simp at hi
  | cons a rest ih =>
    intro i0 i hi
    cases i with
    | zero => simp [mutateGo]
    | succ j =>
      have hj : j < rest.length := by simpa using hi
      have := ih (i0 + 1) j hj
      simp only [mutateGo, List.getD_cons_succ]
      rw [this]
      have harith : i0 + 1 + j = i0 + (j + 1) := by omega
      rw [harith]

/-- Claim C3: the mutation operator leaves the Store unchanged when the
mutation rate is nonpositive or the active allele set has no
non-wild-type allele; otherwise it rewrites the looked-up population in
place so that individual `i` changes exactly when its uniform draw falls
below the rate, a wild-type carrier becomes the oracle-chosen
(uniformly drawn) element of the non-wild-type list, and any other
carrier becomes the wild type, never another mutant. -/
theorem C3_mutation (rate : ℚ) (wild : ℤ) (alleles : List ℤ)
    (pops : List (String × List ℤ)) (name : String) (ρ : ℕ → ℚ) (ν : ℕ → ℕ)
    (pop : List ℤ) (hpop : dget? pops name = some pop) :
    (rate ≤ 0 → handleMutations rate wild alleles pops name ρ ν = .ok pops) ∧
    (alleles.filter (fun a => a ≠ wild) = [] →
      handleMutations rate wild alleles pops name ρ ν = .ok pops) ∧
    (0 < rate → alleles.filter (fun a => a ≠ wild) ≠ [] →
      handleMutations rate wild alleles pops name ρ ν =
        .ok (dset pops name
          (mutateGo rate wild (alleles.filter (fun a => a ≠ wild)) ρ ν 0 pop)) ∧
      (mutateGo rate wild (alleles.filter (fun a => a ≠ wild)) ρ ν 0 pop).length
        = pop.length ∧
      (∀ i, i < pop.length →
        (mutateGo rate wild (alleles.filter (fun a => a ≠ wild)) ρ ν 0 pop).getD i 0 =
          if ρ i < rate then
            (if pop.getD i 0 = wild then
              (alleles.filter (fun a => a ≠ wild)).getD
                (ν i % (alleles.filter (fun a => a ≠ wild)).length) 0
             else wild)
          else pop.getD i 0) ∧
      (∀ i, i < pop.length → pop.getD i 0 ≠ wild →
        (mutateGo rate wild (alleles.filter (fun a => a ≠ wild)) ρ ν 0 pop).getD i 0 = wild ∨
        (mutateGo rate wild (alleles.filter (fun a => a ≠ wild)) ρ ν 0 pop).getD i 0
          = pop.getD i 0)) := by
  refine ⟨?_, ?_, ?_⟩
  · intro hrate
    rw [handleMutations, if_pos hrate]
  · intro hmut
    rw [handleMutations]
    by_cases hrate : rate ≤ 0
    · rw [if_pos hrate]
    · rw [if_neg hrate, hpop]
      dsimp only
      rw [if_pos (by simpa [List.isEmpty_iff] using hmut)]
  · intro hrate hmut
    refine ⟨?_, mutateGo_length rate wild _ ρ ν 0 pop, ?_, ?_⟩
    · rw [handleMutations, if_neg (not_le.mpr hrate), hpop]
      dsimp only
      rw [if_neg (by simpa [List.isEmpty_iff] using hmut)]
    · intro i hi
      have := mutateGo_getD rate wild (alleles.filter (fun a => a ≠ wild)) ρ ν pop 0 i hi
      simpa using this
    · intro i hi hne
      have hch := mutateGo_getD rate wild (alleles.filter (fun a => a ≠ wild)) ρ ν pop 0 i hi
      simp only [Nat.zero_add] at hch
      by_cases hρ : ρ i < rate
      · rw [hch, if_pos hρ, if_neg hne]
        exact Or.inl rfl
      · rw [hch, if_neg hρ]
        exact Or.inr rfl

/-- Claim C3 witness: the characterization applied at a concrete
two-individual population with rate one half and the zeros oracle. -/
theorem C3_witness :
    handleMutations (1/2) 0 [0, 1] [("A", [0, 1])] "A" (fun _ => 0) (fun _ => 0) =
      .ok (dset [("A", [0, 1])] "A"
        (mutateGo (1/2) 0 (([0, 1] : List ℤ).filter (fun a => a ≠ 0))
          (fun _ => 0) (fun _ => 0) 0 [0, 1])) ∧
    handleMutations 0 0 [0, 1] [("A", [0, 1])] "A" (fun _ => 0) (fun _ => 0) =
      .ok [("A", [0, 1])] := by
  constructor
  · exact ((C3_mutation (1/2) 0 [0, 1] [("A", [0, 1])] "A" (fun _ => 0) (fun _ => 0)
      [0, 1] (by rfl)).2.2 (by norm_num) (by decide)).1
  · exact (C3_mutation 0 0 [0, 1] [("A", [0, 1])] "A" (fun _ => 0) (fun _ => 0)
      [0, 1] (by rfl)).1 le_rfl

/-! ## Claims C4 and C5 -/

theorem drawMigrants_mem {src : List ℤ} (hs : src ≠ []) (n : ℕ) (νs : ℕ → ℕ) :
    ∀ x ∈ drawMigrants src n νs, x ∈ src := by
  intro x hx
  simp only [drawMigrants, List.mem_map, List.mem_range] at hx
  obtain ⟨j, _, hj⟩ := hx
  exact hj ▸ getD_mod_mem hs (νs j)

/-- Claim C4: for a migration interval active at `t` whose endpoints are
both present and nonempty, the operator computes the expected count
`len(dest) * rate`, takes its floor, increments by one exactly when the
uniform draw falls below the fractional part, draws that many migrants
with replacement from the source, and overwrites oracle-chosen
(independently uniform) positions of the destination, leaving its length
unchanged. -/
theorem C4_migration (t : ℕ) (mig : Migration) (r : ℚ) (νs νd : ℕ → ℕ)
    (pops : List (String × List ℤ)) (src dst : List ℤ)
    (hA : mig.endTime ≤ (t : ℚ)) (hB : ∀ s ∈ mig.startTime, (t : ℚ) ≤ s)
    (hsrc : dget? pops mig.source = some src) (hdst : dget? pops mig.dest = some dst)
    (hs : src ≠ []) (hd : dst ≠ []) (hr : 0 ≤ mig.rate) :
    migCount dst.length mig.rate r =
      (if r < (dst.length : ℚ) * mig.rate - (⌊(dst.length : ℚ) * mig.rate⌋ : ℚ) then
        ⌊(dst.length : ℚ) * mig.rate⌋ + 1 else ⌊(dst.length : ℚ) * mig.rate⌋) ∧
    migStep t mig r νs νd pops = dset pops mig.dest
      (migWrite dst (drawMigrants src (migCount dst.length mig.rate r).toNat νs) νd) ∧
    (∀ x ∈ drawMigrants src (migCount dst.length mig.rate r).toNat νs, x ∈ src) ∧
    (migWrite dst (drawMigrants src (migCount dst.length mig.rate r).toNat νs) νd).length
      = dst.length := by
  have hfloor : pyInt ((dst.length : ℚ) * mig.rate) = ⌊(dst.length : ℚ) * mig.rate⌋ :=
    pyInt_of_nonneg (mul_nonneg (by positivity) hr)
  have hguard : (decide (mig.endTime ≤ (t : ℚ))
      && mig.startTime.all (fun s => decide ((t : ℚ) ≤ s))) = true := by
    cases hst : mig.startTime with
    | none => simp [hA, Option.all]
    | some s1 =>
      have hs1 : (t : ℚ) ≤ s1 := hB s1 (by rw [hst]; exact Option.mem_def.mpr rfl)
      simp [hA, hs1, Option.all]
  refine ⟨?_, ?_, drawMigrants_mem hs _ νs, migWrite_length dst _ νd⟩
  · rw [migCount, hfloor]
  · rw [migStep, if_pos hguard, hsrc, hdst]
    dsimp only
    rw [if_neg (by simp [List.length_eq_zero, hs, hd])]
    by_cases hn : migCount dst.length mig.rate r > 0
    · rw [if_pos hn]
    · rw [if_neg hn]
      have h0 : (migCount dst.length mig.rate r).toNat = 0 :=
        Int.toNat_of_nonpos (not_lt.mp hn)
      rw [h0]
      exact (dset_eq_self hdst).symm

/-- Claim C4 witness: one active interval over a two-individual
destination at rate one half with the zeros oracle. -/
theorem C4_witness :
    migStep 5 ⟨"A", "B", 1/2, none, 0⟩ 0 (fun _ => 0) (fun _ => 0)
        [("A", [7]), ("B", [1, 2])] =
      dset [("A", [7]), ("B", [1, 2])] "B"
        (migWrite [1, 2] (drawMigrants [7] (migCount 2 (1/2) 0).toNat (fun _ => 0))
          (fun _ => 0)) ∧
    migCount 2 (1/2) 0 =
      (if (0:ℚ) < (2 : ℚ) * (1/2) - (⌊(2 : ℚ) * (1/2)⌋ : ℚ) then
        ⌊(2 : ℚ) * (1/2)⌋ + 1 else ⌊(2 : ℚ) * (1/2)⌋) := by
  have h := C4_migration 5 ⟨"A", "B", 1/2, none, 0⟩ 0 (fun _ => 0) (fun _ => 0)
    [("A", [7]), ("B", [1, 2])] [7] [1, 2]
    (by norm_num) (by simp) (by rfl) (by rfl) (by simp) (by simp) (by norm_num)
  exact ⟨h.2.1, h.1⟩

/-- Claim C5: a pulse fires exactly when its truncated time equals the
generation; with both endpoints present and nonempty it moves exactly
`⌊len(dest) * proportion⌋` migrants drawn with replacement from the
source onto oracle-chosen (independently uniform, possibly repeated)
positions of the destination, with no stochastic rounding of the
fractional part and no change of the destination length. -/
theorem C5_pulse (t : ℕ) (p : Pulse) (νs νd : ℕ → ℕ) (pops : List (String × List ℤ)) :
    (pyInt p.time ≠ (t : ℤ) → pulseStep t p νs νd pops = pops) ∧
    (∀ src dst, pyInt p.time = (t : ℤ) → dget? pops p.source = some src →
      dget? pops p.dest = some dst → src ≠ [] → dst ≠ [] → 0 ≤ p.proportion →
      pulseStep t p νs νd pops = dset pops p.dest (migWrite dst
        (drawMigrants src (⌊(dst.length : ℚ) * p.proportion⌋).toNat νs) νd) ∧
      (∀ x ∈ drawMigrants src (⌊(dst.length : ℚ) * p.proportion⌋).toNat νs, x ∈ src) ∧
      (migWrite dst (drawMigrants src (⌊(dst.length : ℚ) * p.proportion⌋).toNat νs) νd).length
        = dst.length) := by
  constructor
  · intro hne
    rw [pulseStep, if_neg hne]
  · intro src dst htime hsrc hdst hs hd hp
    have hfloor : pyInt ((dst.length : ℚ) * p.proportion)
        = ⌊(dst.length : ℚ) * p.proportion⌋ :=
      pyInt_of_nonneg (mul_nonneg (by positivity) hp)
    refine ⟨?_, drawMigrants_mem hs _ νs, migWrite_length dst _ νd⟩
    rw [pulseStep, if_pos htime, hsrc, hdst]
    dsimp only
    rw [if_neg (by simp [List.length_eq_zero, hs, hd]), hfloor]

/-- Claim C5 witness: a pulse of proportion three quarters over a
two-individual destination moves exactly one migrant
(`⌊2 * 3/4⌋ = 1`). -/
theorem C5_witness :
    pulseStep 9 ⟨"A", "B", 3/4, 9⟩ (fun _ => 0) (fun _ => 0) [("A", [7]), ("B", [1, 2])] =
      dset [("A", [7]), ("B", [1, 2])] "B"
        (migWrite [1, 2] (drawMigrants [7] (⌊(2 : ℚ) * (3/4)⌋).toNat (fun _ => 0))
          (fun _ => 0)) ∧
    pulseStep 8 ⟨"A", "B", 3/4, 9⟩ (fun _ => 0) (fun _ => 0) [("A", [7]), ("B", [1, 2])]
      = [("A", [7]), ("B", [1, 2])] := by
  constructor
  · exact ((C5_pulse 9 ⟨"A", "B", 3/4, 9⟩ (fun _ => 0) (fun _ => 0)
      [("A", [7]), ("B", [1, 2])]).2 [7] [1, 2] (by with_unfolding_all decide) (by rfl)
      (by rfl) (by simp) (by simp) (by norm_num)).1
  · exact (C5_pulse 8 ⟨"A", "B", 3/4, 9⟩ (fun _ => 0) (fun _ => 0)
      [("A", [7]), ("B", [1, 2])]).1 (by with_unfolding_all decide)

/-! ## Claim C10 -/

theorem migStep_cases (t : ℕ) (mig : Migration) (r : ℚ) (νs νd : ℕ → ℕ)
    (pops : List (String × List ℤ)) :
    migStep t mig r νs νd pops = pops ∨
    ∃ dst w, dget? pops mig.dest = some dst ∧ w.length = dst.length ∧
      migStep t mig r νs νd pops = dset pops mig.dest w := by
  rw [migStep]
  split
  · cases hsrc : dget? pops mig.source with
    | none => simp [hsrc]
    | some sourcePop =>
      cases hdst : dget? pops mig.dest with
      | none => simp [hsrc, hdst]
      | some destPop =>
        dsimp only
        by_cases hz : sourcePop.length = 0 ∨ destPop.length = 0
        · rw [if_pos hz]
          left; rfl
        · rw [if_neg hz]
          by_cases hn : migCount destPop.length mig.rate r > 0
          · rw [if_pos hn]
            right
            exact ⟨destPop, _, rfl, migWrite_length destPop _ νd, rfl⟩
          · rw [if_neg hn]
            left; rfl
  · left; rfl

theorem pulseStep_cases (t : ℕ) (p : Pulse) (νs νd : ℕ → ℕ)
    (pops : List (String × List ℤ)) :
    pulseStep t p νs νd pops = pops ∨
    ∃ dst w, dget? pops p.dest = some dst ∧ w.length = dst.length ∧
      pulseStep t p νs νd pops = dset pops p.dest w := by
  rw [pulseStep]
  split
  · cases hsrc : dget? pops p.source with
    | none => simp [hsrc]
    | some sourcePop =>
      cases hdst : dget? pops p.dest with
      | none => simp [hsrc, hdst]
      | some destPop =>
        dsimp only
        by_cases hz : sourcePop.length = 0 ∨ destPop.length = 0
        · rw [if_pos hz]
          left; rfl
        · rw [if_neg hz]
          right
          exact ⟨destPop, _, rfl, migWrite_length destPop _ νd, rfl⟩
  · left; rfl

/-- Consequences of a single frame-respecting step for the Store: keys
unchanged, every collection length unchanged, and every population other
than the step destination untouched. -/
theorem stepFrame {pops pops1 : List (String × List ℤ)} {destName : String}
    (hcase : pops1 = pops ∨
      ∃ dst w, dget? pops destName = some dst ∧ w.length = dst.length ∧
        pops1 = dset pops destName w) :
    dkeys pops1 = dkeys pops ∧
    (∀ name, (dget? pops1 name).map List.length = (dget? pops name).map List.length) ∧
    (∀ name, name ≠ destName → dget? pops1 name = dget? pops name) := by
  rcases hcase with h | ⟨dst, w, hdst, hw, h⟩
  · subst h
    exact ⟨rfl, fun _ => rfl, fun _ _ => rfl⟩
  · subst h
    refine ⟨?_, ?_, ?_⟩
    · exact dkeys_dset_of_mem w ((mem_dkeys_iff_dget? pops destName).mpr (by simp [hdst]))
    · intro name
      rw [dget?_dset]
      by_cases hn : name = destName
      · rw [if_pos hn, hn, hdst]
        simp [hw]
      · rw [if_neg hn]
    · intro name hn
      rw [dget?_dset, if_neg hn]

theorem foldFrame {α : Type} {step : ℕ × α → List (String × List ℤ) → List (String × List ℤ)}
    {destOf : α → String}
    (hcases : ∀ im pops, step im pops = pops ∨
      ∃ dst w, dget? pops (destOf im.2) = some dst ∧ w.length = dst.length ∧
        step im pops = dset pops (destOf im.2) w) :
    ∀ (l : List (ℕ × α)) (pops : List (String × List ℤ)),
      dkeys (l.foldl (fun ps im => step im ps) pops) = dkeys pops ∧
      (∀ name, (dget? (l.foldl (fun ps im => step im ps) pops) name).map List.length
        = (dget? pops name).map List.length) ∧
      (∀ name, (∀ im ∈ l, name ≠ destOf im.2) →
        dget? (l.foldl (fun ps im => step im ps) pops) name = dget? pops name) := by
  intro l
  induction l with
  | nil => intro pops; exact ⟨rfl, fun _ => rfl, fun _ _ => rfl⟩
  | cons im rest ih =>
    intro pops
    rw [List.foldl_cons]
    obtain ⟨hk1, hl1, hf1⟩ := stepFrame (hcases im pops)
    obtain ⟨hk2, hl2, hf2⟩ := ih (step im pops)
    refine ⟨hk2.trans hk1, ?_, ?_⟩
    · intro name
      exact (hl2 name).trans (hl1 name)
    · intro name hname
      rw [hf2 name (fun q hq => hname q (List.mem_cons_of_mem im hq)),
          hf1 name (hname im (List.mem_cons_self im rest))]

/-- Claim C10: neither the continuous migration pass nor the pulse pass
changes the key set of the Store or the length of any collection; a
population that is no interval destination (resp. no pulse destination)
is left entirely unchanged, and a single step never modifies its source
population when the source differs from the destination. -/
theorem C10_frame (g : Graph) (o : Oracle) (t : ℕ) (pops : List (String × List ℤ)) :
    dkeys (handleMigration g o t pops) = dkeys pops ∧
    (∀ name, (dget? (handleMigration g o t pops) name).map List.length
      = (dget? pops name).map List.length) ∧
    (∀ name, (∀ mig ∈ g.migrations, name ≠ mig.dest) →
      dget? (handleMigration g o t pops) name = dget? pops name) ∧
    dkeys (handlePulses g o t pops) = dkeys pops ∧
    (∀ name, (dget? (handlePulses g o t pops) name).map List.length
      = (dget? pops name).map List.length) ∧
    (∀ name, (∀ p ∈ g.pulses, name ≠ p.dest) →
      dget? (handlePulses g o t pops) name = dget? pops name) ∧
    (∀ (mig : Migration) (r : ℚ) (νs νd : ℕ → ℕ) (ps : List (String × List ℤ)),
      mig.source ≠ mig.dest →
      dget? (migStep t mig r νs νd ps) mig.source = dget? ps mig.source) ∧
    (∀ (p : Pulse) (νs νd : ℕ → ℕ) (ps : List (String × List ℤ)),
      p.source ≠ p.dest →
      dget? (pulseStep t p νs νd ps) p.source = dget? ps p.source) := by
  have hmig := @foldFrame _
    (fun im ps => migStep t im.2 (o.migReal t im.1) (o.migSrc t im.1)
      (o.migDst t im.1) ps)
    Migration.dest
    (fun im ps => migStep_cases t im.2 (o.migReal t im.1) (o.migSrc t im.1)
      (o.migDst t im.1) ps)
    g.migrations.enum pops
  have hpul := @foldFrame _
    (fun ip ps => pulseStep t ip.2 (o.pulSrc t ip.1) (o.pulDst t ip.1) ps)
    Pulse.dest
    (fun ip ps => pulseStep_cases t ip.2 (o.pulSrc t ip.1) (o.pulDst t ip.1) ps)
    g.pulses.enum pops
  refine ⟨hmig.1, hmig.2.1, ?_, hpul.1, hpul.2.1, ?_, ?_, ?_⟩
  · intro name hname
    exact hmig.2.2 name (fun im him => hname im.2 (List.snd_mem_of_mem_enum him))
  · intro name hname
    exact hpul.2.2 name (fun ip hip => hname ip.2 (List.snd_mem_of_mem_enum hip))
  · intro mig r νs νd ps hne
    exact (stepFrame (migStep_cases t mig r νs νd ps)).2.2 mig.source hne
  · intro p νs νd ps hne
    exact (stepFrame (pulseStep_cases t p νs νd ps)).2.2 p.source hne

/-- Claim C10 witness: the frame conclusions read off at a concrete
graph with one migration interval and one pulse. -/
theorem C10_witness :
    dkeys (handleMigration ⟨[], [⟨"A", "B", 1/2, none, 0⟩], [⟨"A", "B", 1/2, 9⟩]⟩
        oracle0 5 [("A", [7]), ("B", [1, 2]), ("C", [3])])
      = dkeys [("A", [7]), ("B", [1, 2]), ("C", [3])] ∧
    dget? (handleMigration ⟨[], [⟨"A", "B", 1/2, none, 0⟩], [⟨"A", "B", 1/2, 9⟩]⟩
        oracle0 5 [("A", [7]), ("B", [1, 2]), ("C", [3])]) "C"
      = dget? [("A", [7]), ("B", [1, 2]), ("C", [3])] "C" := by
  have h := C10_frame ⟨[], [⟨"A", "B", 1/2, none, 0⟩], [⟨"A", "B", 1/2, 9⟩]⟩
    oracle0 5 [("A", [7]), ("B", [1, 2]), ("C", [3])]
  refine ⟨h.1, h.2.2.1 "C" ?_⟩
  intro mig hmig
  simp only [List.mem_singleton] at hmig
  rw [hmig]
  simp

/-! ## Claim C2 -/

theorem initPopulation_state {cfg : Cfg} {o : Oracle} {t : ℕ} {name : String} {size : ℚ}
    {ancestors : List String} {proportions : List ℚ} {st st1 : SimState}
    (h : initPopulation cfg o t name size ancestors proportions st = .ok st1) :
    st1.alleles = st.alleles ∧ st1.genLog = st.genLog ∧ st1.clog = st.clog ∧
    ∃ newPop, st1.pops = dset st.pops name newPop ∧
      st1.history = dset st.history name [] := by
  rw [initPopulation] at h
  by_cases ha : ancestors.isEmpty
  · rw [if_pos ha] at h
    injection h with h
    subst h
    exact ⟨rfl, rfl, rfl, _, rfl, rfl⟩
  · rw [if_neg ha] at h
    split at h
    · exact absurd h (by simp)
    · injection h with h
      subst h
      exact ⟨rfl, rfl, rfl, _, rfl, rfl⟩

theorem birthStep_state {cfg : Cfg} {o : Oracle} {sg : ℤ} {t : ℕ} {d : Deme}
    {st st1 : SimState} (h : birthStep cfg o sg t d st = .ok st1) :
    st1.alleles = st.alleles ∧ st1.genLog = st.genLog ∧ st1.clog = st.clog := by
  rw [birthStep] at h
  split at h
  · split at h
    · injection h with h
      subst h
      exact ⟨rfl, rfl, rfl⟩
    · split at h
      · exact absurd h (by simp)
      · obtain ⟨h1, h2, h3, -⟩ := initPopulation_state h
        exact ⟨h1, h2, h3⟩
  · injection h with h
    subst h
    exact ⟨rfl, rfl, rfl⟩

theorem introStep_state {t : ℕ} {o : Oracle} {eIdx : ℕ} {e : SchedEntry} {st st1 : SimState}
    (h : introStep t o eIdx e st = .ok st1) :
    st1.genLog = st.genLog ∧ st1.clog = st.clog ∧ st1.history = st.history := by
  rw [introStep] at h
  split at h
  · injection h with h
    subst h
    exact ⟨rfl, rfl, rfl⟩
  · split at h
    · injection h with h
      subst h
      exact ⟨rfl, rfl, rfl⟩
    · split at h
      · exact absurd h (by simp)
      · injection h with h
        subst h
        exact ⟨rfl, rfl, rfl⟩

theorem handleNewAlleles_state {cfg : Cfg} {o : Oracle} {t : ℕ} {st st1 : SimState}
    (h : handleNewAlleles cfg o t st = .ok st1) :
    st1.genLog = st.genLog ∧ st1.clog = st.clog ∧ st1.history = st.history := by
  rw [handleNewAlleles] at h
  split at h
  · injection h with h
    subst h
    exact ⟨rfl, rfl, rfl⟩
  · refine @foldE_pres _ _
      (fun s => s.genLog = st.genLog ∧ s.clog = st.clog ∧ s.history = st.history) _
      ?_ _ st st1 ⟨rfl, rfl, rfl⟩ h
    intro a s s1 hP hstep
    obtain ⟨h1, h2, h3⟩ := introStep_state hstep
    exact ⟨h1.trans hP.1, h2.trans hP.2.1, h3.trans hP.2.2⟩

theorem evolveStep_state {cfg : Cfg} {o : Oracle} {t : ℕ} {name : String} {st st1 : SimState}
    (h : evolveStep cfg o t name st = .ok st1) :
    st1.genLog = st.genLog ∧ st1.clog = st.clog ∧ st1.history = st.history ∧
    st1.alleles = st.alleles := by
  rw [evolveStep] at h
  repeat' split at h
  all_goals first
    | (injection h with h; subst h; exact ⟨rfl, rfl, rfl, rfl⟩)
    | exact absurd h (by simp)

theorem censusStep_state {zf : List (ℤ × ℚ)} {t : ℕ} {name : String} {st st1 : SimState}
    (h : censusStep zf t name st = .ok st1) :
    st1.genLog = st.genLog ∧ st1.pops = st.pops ∧ st1.alleles = st.alleles := by
  rw [censusStep] at h
  repeat' split at h
  all_goals first
    | (injection h with h; subst h; exact ⟨rfl, rfl, rfl⟩)
    | exact absurd h (by simp)

theorem genBody_genLog {cfg : Cfg} {o : Oracle} {sg : ℤ} {t : ℕ} {st st1 : SimState}
    (h : genBody cfg o sg t st = .ok st1) : st1.genLog = st.genLog ++ [t] := by
  rw [genBody] at h
  split at h
  · exact absurd h (by simp)
  · rename_i st2 hbirths
    have h2 : st2.genLog = st.genLog ++ [t] :=
      foldE_pres (fun a s s1 hP hstep => ((birthStep_state hstep).2.1).trans hP)
        cfg.graph.demes _ st2 rfl hbirths
    split at h
    · exact absurd h (by simp)
    · rename_i st3 hnew
      have h3 : st3.genLog = st.genLog ++ [t] := ((handleNewAlleles_state hnew).1).trans h2
      split at h
      · exact absurd h (by simp)
      · rename_i st4 hev
        have h4 : st4.genLog = st.genLog ++ [t] :=
          foldE_pres (fun a s s1 hP hstep => ((evolveStep_state hstep).1).trans hP)
            (dkeys st3.pops) st3 st4 h3 hev
        refine @foldE_pres _ _ (fun s => s.genLog = st.genLog ++ [t]) _
          (fun a s s1 hP hstep => ((censusStep_state hstep).1).trans hP)
          _ _ st1 ?_ h
        exact h4

theorem loopGo_genLog {cfg : Cfg} {o : Oracle} {sg : ℤ} :
    ∀ (t : ℕ) (st st1 : SimState), loopGo cfg o sg t st = .ok st1 →
      st1.genLog = st.genLog ++ (List.range (t + 1)).reverse := by
  intro t
  induction t with
  | zero =>
    intro st st1 h
    rw [loopGo] at h
    simpa using genBody_genLog h
  | succ u ih =>
    intro st st1 h
    rw [loopGo] at h
    split at h
    · exact absurd h (by simp)
    · rename_i st2 hbody
      have h2 := genBody_genLog hbody
      have h3 := ih st2 st1 h
      rw [h3, h2]
      simp [List.range_succ]

/-- Claim C2: `run()` selects the horizon as 100 when every start time
is infinite and as `⌊max F⌋ + 50` otherwise (for the nonnegative times
the demes provider supplies, where Python `int` truncation agrees with
the floor), and a completed run processes exactly the generations
horizon, horizon−1, ..., 0 in order, never exiting early. -/
theorem C2_horizon_loop (g : Graph) (cfg : Cfg) (o : Oracle) (st st1 : SimState) :
    (finiteStartTimes g = [] → startGeneration g = 100) ∧
    (finiteStartTimes g ≠ [] → (∀ q ∈ finiteStartTimes g, 0 ≤ q) →
      startGeneration g = ⌊maxList (finiteStartTimes g)⌋ + 50) ∧
    (cfg.graph = g → 0 ≤ startGeneration g → runFull cfg o st = .ok st1 →
      st1.genLog = st.genLog ++ (List.range ((startGeneration g).toNat + 1)).reverse) := by
  refine ⟨?_, ?_, ?_⟩
  · intro hF
    rw [startGeneration, if_pos hF]
  · intro hF hpos
    rw [startGeneration, if_neg hF]
    have hmax : 0 ≤ maxList (finiteStartTimes g) := hpos _ (maxList_mem _ hF)
    rw [pyInt_of_nonneg (by linarith)]
    have : maxList (finiteStartTimes g) + 50
        = maxList (finiteStartTimes g) + ((50 : ℤ) : ℚ) := by norm_num
    rw [this, Int.floor_add_int]
  · intro hg hpos hrun
    rw [runFull] at hrun
    rw [hg] at hrun
    rw [if_neg (not_lt.mpr hpos)] at hrun
    have := loopGo_genLog ((startGeneration g).toNat) st st1 hrun
    exact this

/-- Claim C2 witness graph: one deme born at time 3, so the horizon is
`int(3 + 50) = 53`. -/
def gW : Graph := ⟨[⟨"A", some 3, [⟨1⟩], [], [], fun _ => 1⟩], [], []⟩

/-- Claim C2 witness configuration over `gW`. -/
def cfgW : Cfg := ⟨gW, [0, 1], 0, 0, [(0, 1), (1, 1)], [(0, 1/2), (1, 1/2)], []⟩

/-- Claim C2 witness start state. -/
def stW : SimState := ⟨[0, 1], [], [], [], []⟩

/-- The final state of the witness run (extracted so the run equation is
a closed decidable statement). -/
def resW : SimState := match runFull cfgW oracle0 stW with
  | .ok s => s
  | .error _ => ⟨[], [], [], [], []⟩

set_option maxRecDepth 4000 in
/-- Claim C2 witness: the horizon formula and the processed-generation
trace at a concrete one-deme graph, via the claim theorem. -/
theorem C2_witness :
    startGeneration gW = ⌊maxList (finiteStartTimes gW)⌋ + 50 ∧
    resW.genLog = ([] : List ℕ) ++ (List.range ((startGeneration gW).toNat + 1)).reverse := by
  constructor
  · exact (C2_horizon_loop gW cfgW oracle0 stW resW).2.1 (by with_unfolding_all decide)
      (by intro q hq; simp [finiteStartTimes, gW] at hq; rw [hq]; norm_num)
  · exact (C2_horizon_loop gW cfgW oracle0 stW resW).2.2 rfl
      (by with_unfolding_all decide) (by with_unfolding_all decide)

/-! ### Membership preservation through the operators -/

theorem ancGo_mem {S : List ℤ} {wild : ℤ} {size : ℚ} {pops : List (String × List ℤ)}
    {νa : ℕ → ℕ → ℕ} (hpops : PopsIn S pops) (hwild : wild ∈ S) :
    ∀ (l : List (String × ℚ)) (i : ℕ) (acc : List ℤ) (x : ℤ),
      x ∈ ancGo wild size pops νa i l acc → x ∈ acc ∨ x ∈ S := by
  intro l
  induction l with
  | nil => intro i acc x hx; exact Or.inl hx
  | cons pr rest ih =>
    intro i acc x hx
    obtain ⟨ancestor, prop⟩ := pr
    rw [ancGo] at hx
    cases hsrc : dget? pops ancestor with
    | none =>
      rw [hsrc] at hx
      exact ih (i + 1) acc x hx
    | some sourcePop =>
      rw [hsrc] at hx
      dsimp only at hx
      by_cases hemp : sourcePop.isEmpty = true
      · rw [if_pos hemp] at hx
        rcases ih (i + 1) _ x hx with h | h
        · rcases List.mem_append.mp h with h1 | h1
          · exact Or.inl h1
          · exact Or.inr (replicate_mem h1 ▸ hwild)
        · exact Or.inr h
      · rw [if_neg hemp] at hx
        rcases ih (i + 1) _ x hx with h | h
        · rcases List.mem_append.mp h with h1 | h1
          · exact Or.inl h1
          · right
            simp only [List.mem_map, List.mem_range] at h1
            obtain ⟨j, -, hj⟩ := h1
            have hone : sourcePop ≠ [] := by simpa [List.isEmpty_iff] using hemp
            exact hpops ancestor sourcePop hsrc x (hj ▸ getD_mod_mem hone _)
        · exact Or.inr h

theorem topUpGo_mem {S alleles : List ℤ} {pops : List (String × List ℤ)} {anc0 : String}
    {size : ℚ} {νt : ℕ → ℕ} (hpops : PopsIn S pops) (hall : ∀ a ∈ alleles, a ∈ S) :
    ∀ (fuel i : ℕ) (acc l : List ℤ),
      topUpGo alleles size anc0 pops νt fuel i acc = .ok l →
      ∀ x ∈ l, x ∈ acc ∨ x ∈ S := by
  intro fuel
  induction fuel with
  | zero =>
    intro i acc l h x hx
    rw [topUpGo] at h
    injection h with h
    exact Or.inl (h ▸ hx)
  | succ f ih =>
    intro i acc l h x hx
    rw [topUpGo] at h
    by_cases hg : (acc.length : ℚ) < size
    · rw [if_pos hg] at h
      cases hp : dget? pops anc0 with
      | none => rw [hp] at h; exact absurd h (by simp)
      | some primary =>
        rw [hp] at h
        dsimp only at h
        by_cases hemp : primary.isEmpty = true
        · rw [if_pos hemp] at h
          by_cases hae : alleles.isEmpty
          · rw [pyChoice, if_pos hae] at h
            exact absurd h (by simp)
          · rw [pyChoice_ok (by simpa [List.isEmpty_iff] using hae) (νt i)] at h
            rcases ih (i + 1) _ l h x hx with h1 | h1
            · rcases List.mem_append.mp h1 with h2 | h2
              · exact Or.inl h2
              · right
                rw [List.mem_singleton] at h2
                exact hall _ (h2 ▸ getD_mod_mem
                  (by simpa [List.isEmpty_iff] using hae) (νt i))
            · exact Or.inr h1
        · have hpne : primary ≠ [] := by simpa [List.isEmpty_iff] using hemp
          rw [if_neg hemp, pyChoice_ok hpne (νt i)] at h
          rcases ih (i + 1) _ l h x hx with h1 | h1
          · rcases List.mem_append.mp h1 with h2 | h2
            · exact Or.inl h2
            · right
              rw [List.mem_singleton] at h2
              exact hpops anc0 primary hp x (h2 ▸ getD_mod_mem hpne (νt i))
          · exact Or.inr h1
    · rw [if_neg hg] at h
      injection h with h
      exact Or.inl (h ▸ hx)

theorem introWrite_mem {pop : List ℤ} {allele : ℤ} {n : ℕ} {νp : ℕ → ℕ} {x : ℤ}
    (hx : x ∈ introWrite pop allele n νp) : x ∈ pop ∨ x = allele := by
  rw [introWrite] at hx
  have : ∀ (idxs : List ℕ) (p : List ℤ), (∀ y ∈ p, y ∈ pop ∨ y = allele) →
      ∀ y ∈ idxs.foldl (fun p idx => p.set idx allele) p, y ∈ pop ∨ y = allele := by
    intro idxs
    induction idxs with
    | nil => intro p hp y hy; exact hp y hy
    | cons idx rest ih =>
      intro p hp y hy
      rw [List.foldl_cons] at hy
      refine ih _ ?_ y hy
      intro z hz
      rcases List.mem_or_eq_of_mem_set hz with h1 | h1
      · exact hp z h1
      · exact Or.inr h1
  exact this _ pop (fun y hy => Or.inl hy) x hx

theorem handleMutations_popsIn {S : List ℤ} {rate : ℚ} {wild : ℤ} {alleles : List ℤ}
    {pops pops2 : List (String × List ℤ)} {name : String} {ρ : ℕ → ℚ} {ν : ℕ → ℕ}
    (hwild : wild ∈ S) (hall : ∀ a ∈ alleles, a ∈ S) (hpops : PopsIn S pops)
    (h : handleMutations rate wild alleles pops name ρ ν = .ok pops2) : PopsIn S pops2 := by
  rw [handleMutations] at h
  by_cases hr : rate ≤ 0
  · rw [if_pos hr] at h
    injection h with h
    exact h ▸ hpops
  · rw [if_neg hr] at h
    cases hp : dget? pops name with
    | none => rw [hp] at h; exact absurd h (by simp)
    | some population =>
      rw [hp] at h
      dsimp only at h
      by_cases hm : (alleles.filter (fun a => a ≠ wild)).isEmpty
      · rw [if_pos hm] at h
        injection h with h
        exact h ▸ hpops
      · rw [if_neg hm] at h
        injection h with h
        rw [← h]
        refine hpops.dset ?_
        intro x hx
        rcases mutateGo_mem (by simpa [List.isEmpty_iff] using hm) hx with h1 | h1 | h1
        · exact hpops name population hp x h1
        · exact h1 ▸ hwild
        · exact hall x (List.mem_filter.mp h1).1

theorem migStep_popsIn {S : List ℤ} {t : ℕ} {mig : Migration} {r : ℚ} {νs νd : ℕ → ℕ}
    {pops : List (String × List ℤ)} (hpops : PopsIn S pops) :
    PopsIn S (migStep t mig r νs νd pops) := by
  rw [migStep]
  split
  · cases hsrc : dget? pops mig.source with
    | none => simpa [hsrc] using hpops
    | some sourcePop =>
      cases hdst : dget? pops mig.dest with
      | none => simpa [hsrc, hdst] using hpops
      | some destPop =>
        dsimp only
        by_cases hz : sourcePop.length = 0 ∨ destPop.length = 0
        · rw [if_pos hz]
          exact hpops
        · rw [if_neg hz]
          push_neg at hz
          have hsne : sourcePop ≠ [] := by
            intro he; exact hz.1 (by simp [he])
          by_cases hn : migCount destPop.length mig.rate r > 0
          · rw [if_pos hn]
            refine hpops.dset ?_
            intro x hx
            rcases migWrite_mem _ hx with h1 | h1
            · exact hpops mig.dest destPop hdst x h1
            · exact hpops mig.source sourcePop hsrc x (drawMigrants_mem hsne _ νs x h1)
          · rw [if_neg hn]
            exact hpops
  · exact hpops

theorem pulseStep_popsIn {S : List ℤ} {t : ℕ} {p : Pulse} {νs νd : ℕ → ℕ}
    {pops : List (String × List ℤ)} (hpops : PopsIn S pops) :
    PopsIn S (pulseStep t p νs νd pops) := by
  rw [pulseStep]
  split
  · cases hsrc : dget? pops p.source with
    | none => simpa [hsrc] using hpops
    | some sourcePop =>
      cases hdst : dget? pops p.dest with
      | none => simpa [hsrc, hdst] using hpops
      | some destPop =>
        dsimp only
        by_cases hz : sourcePop.length = 0 ∨ destPop.length = 0
        · rw [if_pos hz]
          exact hpops
        · rw [if_neg hz]
          push_neg at hz
          have hsne : sourcePop ≠ [] := by
            intro he; exact hz.1 (by simp [he])
          refine hpops.dset ?_
          intro x hx
          rcases migWrite_mem _ hx with h1 | h1
          · exact hpops p.dest destPop hdst x h1
          · exact hpops p.source sourcePop hsrc x (drawMigrants_mem hsne _ νs x h1)
  · exact hpops

theorem handleMigration_popsIn {S : List ℤ} {g : Graph} {o : Oracle} {t : ℕ}
    {pops : List (String × List ℤ)} (hpops : PopsIn S pops) :
    PopsIn S (handleMigration g o t pops) := by
  rw [handleMigration]
  exact foldl_pres (fun im ps hP => migStep_popsIn hP) g.migrations.enum pops hpops

theorem handlePulses_popsIn {S : List ℤ} {g : Graph} {o : Oracle} {t : ℕ}
    {pops : List (String × List ℤ)} (hpops : PopsIn S pops) :
    PopsIn S (handlePulses g o t pops) := by
  rw [handlePulses]
  exact foldl_pres (fun ip ps hP => pulseStep_popsIn hP) g.pulses.enum pops hpops

/-! ### Shape of a successful construction -/

theorem activeAlleles_ne_nil (AP future : List ℤ) (w : ℤ) : activeAlleles AP future w ≠ [] := by
  rw [activeAlleles]
  split
  · split <;> simp
  · rename_i hne
    simpa [List.isEmpty_iff] using hne

theorem activeAlleles_sub {AP future : List ℤ} {w : ℤ} (hw : w ∈ AP) :
    ∀ a ∈ activeAlleles AP future w, a ∈ AP := by
  intro a ha
  rw [activeAlleles] at ha
  split at ha
  · rw [List.mem_singleton] at ha
    exact ha ▸ hw
  · exact (List.mem_filter.mp ha).1

theorem resolveFreqs_keys {alleles0 : List ℤ} (hne : alleles0 ≠ []) (spec : FreqSpec) :
    ∀ k ∈ dkeys (resolveFreqs alleles0 spec), k ∈ alleles0 := by
  cases spec with
  | table m =>
    rw [resolveFreqs]
    have : ∀ (l : List (ℤ × ℚ)) (d0 : List (ℤ × ℚ)), (∀ k ∈ dkeys d0, k ∈ alleles0) →
        ∀ k ∈ dkeys (l.foldl
          (fun d kv => if kv.1 ∈ alleles0 then dset d kv.1 kv.2 else d) d0), k ∈ alleles0 := by
      intro l
      induction l with
      | nil => intro d0 h0 k hk; exact h0 k hk
      | cons kv rest ih =>
        intro d0 h0 k hk
        rw [List.foldl_cons] at hk
        by_cases hmem : kv.1 ∈ alleles0
        · rw [if_pos hmem] at hk
          refine ih _ ?_ k hk
          intro k1 hk1
          by_cases hin : kv.1 ∈ dkeys d0
          · rw [dkeys_dset_of_mem kv.2 hin] at hk1
            exact h0 k1 hk1
          · have := (mem_dkeys_iff_dget? _ k1).mp hk1
            rw [dget?_dset] at this
            by_cases hkk : k1 = kv.1
            · exact hkk ▸ hmem
            · rw [if_neg hkk] at this
              exact h0 k1 ((mem_dkeys_iff_dget? d0 k1).mpr this)
        · rw [if_neg hmem] at hk
          exact ih d0 h0 k hk
    exact this m [] (by simp [dkeys])
  | scalar f =>
    rw [resolveFreqs]
    by_cases h2 : alleles0.length ≠ 2
    · rw [if_pos h2]
      by_cases h1 : alleles0.length = 1
      · rw [if_pos h1]
        intro k hk
        simp only [dkeys, List.map_cons, List.map_nil, List.mem_singleton] at hk
        exact hk ▸ headD_mem hne 0
      · rw [if_neg h1]
        intro k hk
        exact (mem_dkeys_freqDict _ _ k).mp hk
    · rw [if_neg h2]
      push_neg at h2
      intro k hk
      have := (mem_dkeys_iff_dget? _ k).mp hk
      rw [dget?_dset] at this
      by_cases hk1 : k = alleles0.getD 1 0
      · subst hk1
        have hlt : (1 : ℕ) < alleles0.length := by omega
        rw [List.getD_eq_getElem alleles0 0 hlt]
        exact List.getElem_mem hlt
      · rw [if_neg hk1, dget?_dset] at this
        by_cases hk0 : k = alleles0.headD 0
        · exact hk0 ▸ headD_mem hne 0
        · rw [if_neg hk0] at this
          simp [dget?] at this
  | noSpec =>
    rw [resolveFreqs]
    intro k hk
    exact (mem_dkeys_freqDict _ _ k).mp hk

theorem dkeys_map_pair {f : List (ℤ × ℚ)} {g : ℤ × ℚ → ℚ} :
    dkeys (f.map (fun kv => (kv.1, g kv))) = dkeys f := by
  induction f with
  | nil => rfl
  | cons kv rest ih => simp [dkeys]

theorem normFreqs_ok_shape {f r : List (ℤ × ℚ)} (h : normFreqs f = .ok r) :
    dkeys r = dkeys f ∧ f ≠ [] := by
  have hfne : f ≠ [] := by
    intro hf
    subst hf
    rw [normFreqs] at h
    rw [if_neg (by with_unfolding_all decide), if_pos (by rfl)] at h
    exact absurd h (by simp)
  rw [normFreqs] at h
  by_cases h1 : pyIsClose (sumV f) 1
  · rw [if_pos h1] at h
    injection h with h
    exact ⟨h ▸ rfl, hfne⟩
  · rw [if_neg h1] at h
    by_cases h2 : sumV f = 0
    · rw [if_pos h2] at h
      exact absurd h (by simp)
    · rw [if_neg h2] at h
      injection h with h
      exact ⟨h ▸ dkeys_map_pair, hfne⟩

theorem dAppendAt_mem {bt : List (ℤ × List SchedEntry)} {t : ℤ} {e : SchedEntry}
    {tt : ℤ} {es : List SchedEntry} (h : dget? (dAppendAt bt t e) tt = some es) :
    ∀ e1 ∈ es, e1 = e ∨ ∃ es0, dget? bt tt = some es0 ∧ e1 ∈ es0 := by
  intro e1 he1
  rw [dAppendAt] at h
  cases hb : dget? bt t with
  | none =>
    rw [hb, dget?_dset] at h
    by_cases htt : tt = t
    · rw [if_pos htt] at h
      injection h with h
      rw [← h] at he1
      rw [List.mem_singleton] at he1
      exact Or.inl he1
    · rw [if_neg htt] at h
      exact Or.inr ⟨es, h, he1⟩
  | some l =>
    rw [hb, dget?_dset] at h
    by_cases htt : tt = t
    · rw [if_pos htt] at h
      injection h with h
      rw [← h] at he1
      rcases List.mem_append.mp he1 with h1 | h1
      · exact Or.inr ⟨l, htt ▸ hb, h1⟩
      · rw [List.mem_singleton] at h1
        exact Or.inl h1
    · rw [if_neg htt] at h
      exact Or.inr ⟨es, h, he1⟩

theorem parse_sched {AP : List ℤ} :
    ∀ (l : List NewEntry) (bt : List (ℤ × List SchedEntry)) (f : List ℤ)
      (r : List (ℤ × List SchedEntry) × List ℤ),
      parseEntries AP l bt f = .ok r →
      (∀ tt es, dget? bt tt = some es → ∀ e ∈ es, e.allele ∈ AP) →
      ∀ tt es, dget? r.1 tt = some es → ∀ e ∈ es, e.allele ∈ AP := by
  intro l
  induction l with
  | nil =>
    intro bt f r h hbt
    rw [parseEntries] at h
    injection h with h
    exact h ▸ hbt
  | cons e0 rest ih =>
    intro bt f r h hbt
    rw [parseEntries] at h
    cases ha : e0.allele with
    | none => rw [ha] at h; exact absurd h (by simp)
    | some a =>
      cases hp : e0.population with
      | none => rw [ha, hp] at h; exact absurd h (by simp)
      | some p =>
        cases hs : e0.startTime with
        | none => rw [ha, hp, hs] at h; exact absurd h (by simp)
        | some stime =>
          rw [ha, hp, hs] at h
          dsimp only at h
          by_cases hmem : a ∈ AP
          · rw [if_neg (by simpa using hmem)] at h
            refine ih _ _ r h ?_
            intro tt es hes e1 he1
            rcases dAppendAt_mem hes e1 he1 with h1 | ⟨es0, hes0, h1⟩
            · rw [h1]
              exact hmem
            · exact hbt tt es0 hes0 e1 h1
          · rw [if_pos (by simpa using hmem)] at h
            exact absurd h (by simp)

theorem mkSim_shape {graph : Graph} {newCfg : List NewEntry} {allelesArg : List ℤ}
    {freqSpec : FreqSpec} {mutationRate : ℚ} {wildType : ℤ} {selection : List (ℤ × ℚ)}
    {cfg : Cfg} {st0 : SimState}
    (h : mkSim graph newCfg allelesArg freqSpec mutationRate wildType selection
      = .ok (cfg, st0)) :
    st0.pops = [] ∧ st0.history = [] ∧ st0.genLog = [] ∧ st0.clog = [] ∧
    st0.alleles ≠ [] ∧ cfg.wildType = wildType ∧ cfg.graph = graph ∧
    dkeys cfg.initialFreqs ≠ [] ∧ (∀ k ∈ dkeys cfg.initialFreqs, k ∈ st0.alleles) ∧
    cfg.allPotential = allPotentialOf allelesArg ∧
    (wildType ∈ allPotentialOf allelesArg →
      ∀ a ∈ st0.alleles, a ∈ allPotentialOf allelesArg) ∧
    (∀ (tt : ℤ) (es : List SchedEntry), dget? cfg.allelesByTime tt = some es →
      ∀ e ∈ es, e.allele ∈ allPotentialOf allelesArg) := by
  rw [mkSim] at h
  cases hp : parseEntries (allPotentialOf allelesArg) newCfg [] [] with
  | error e => rw [hp] at h; exact absurd h (by simp)
  | ok r =>
    obtain ⟨byTime, future⟩ := r
    rw [hp] at h
    dsimp only at h
    cases hn : normFreqs (resolveFreqs
        (activeAlleles (allPotentialOf allelesArg) future wildType) freqSpec) with
    | error e => rw [hn] at h; exact absurd h (by simp)
    | ok freqs =>
      rw [hn] at h
      injection h with h
      have hcfg1 : cfg = ⟨graph, allPotentialOf allelesArg, wildType, mutationRate,
          fitnessOf (allPotentialOf allelesArg) selection, freqs, byTime⟩ :=
        (congrArg Prod.fst h).symm
      have hst1 : st0 = ⟨activeAlleles (allPotentialOf allelesArg) future wildType,
          [], [], [], []⟩ := (congrArg Prod.snd h).symm
      obtain ⟨hkeys, hne⟩ := normFreqs_ok_shape hn
      subst hcfg1
      subst hst1
      refine ⟨rfl, rfl, rfl, rfl, activeAlleles_ne_nil _ _ _, rfl, rfl, ?_, ?_, rfl, ?_, ?_⟩
      · intro hempty
        rw [show (dkeys freqs = []) ↔ freqs = [] from by
          cases freqs <;> simp [dkeys]] at hempty
        have := hempty ▸ hkeys
        rw [hempty] at hkeys
        have h2 : dkeys (resolveFreqs
            (activeAlleles (allPotentialOf allelesArg) future wildType) freqSpec) = [] :=
          hkeys.symm
        have h3 := hne
        cases hres : resolveFreqs
            (activeAlleles (allPotentialOf allelesArg) future wildType) freqSpec with
        | nil => exact h3 hres
        | cons kv rest => rw [hres] at h2; simp [dkeys] at h2
      · intro k hk
        rw [hkeys] at hk
        exact resolveFreqs_keys (activeAlleles_ne_nil _ _ _) freqSpec k hk
      · intro hw
        exact activeAlleles_sub hw
      · intro tt es hes e he
        exact parse_sched newCfg [] [] (byTime, future) hp (by simp [dget?]) tt es hes e he

/-! ### The census invariant -/

/-- Every census-log entry has a key (with value 0 when the allele is
absent from the collection) for every allele of `A0`, and the record of
a non-extinct census sums to 1. -/
def ClogOK (A0 : List ℤ) (clog : List CensusEntry) : Prop :=
  ∀ c ∈ clog,
    (∀ a ∈ A0, ∃ v, dget? c.record a = some v ∧ (a ∉ c.coll → v = 0)) ∧
    (c.coll ≠ [] → sumV c.record = 1)

/-- The run invariant for the census claim: the wild type and the
construction-time active alleles `A0` and initial-frequency keys `F` all
stay in the active list, every stored individual carries an active
allele, and the census log is sound. -/
def Inv1 (wild : ℤ) (A0 F : List ℤ) (st : SimState) : Prop :=
  wild ∈ st.alleles ∧ (∀ a ∈ A0, a ∈ st.alleles) ∧ (∀ a ∈ F, a ∈ st.alleles) ∧
  PopsIn st.alleles st.pops ∧ ClogOK A0 st.clog

theorem initPopulation_inv {cfg : Cfg} {o : Oracle} {t : ℕ} {name : String} {size : ℚ}
    {ancestors : List String} {proportions : List ℚ} {st st1 : SimState}
    {wild : ℤ} {A0 F : List ℤ}
    (hcw : cfg.wildType = wild) (hcf : dkeys cfg.initialFreqs = F) (hF : F ≠ [])
    (hinv : Inv1 wild A0 F st)
    (h : initPopulation cfg o t name size ancestors proportions st = .ok st1) :
    Inv1 wild A0 F st1 := by
  obtain ⟨hw, hA, hFs, hpops, hclog⟩ := hinv
  rw [initPopulation] at h
  by_cases ha : ancestors.isEmpty
  · rw [if_pos ha] at h
    injection h with h
    subst h
    refine ⟨hw, hA, hFs, ?_, hclog⟩
    refine hpops.dset ?_
    intro x hx
    have hFne : dkeys cfg.initialFreqs ≠ [] := hcf ▸ hF
    exact hFs x (hcf ▸ choicesK_mem hFne _ _ _ hx)
  · rw [if_neg ha] at h
    split at h
    · exact absurd h (by simp)
    · rename_i topped htop
      injection h with h
      subst h
      refine ⟨hw, hA, hFs, ?_, hclog⟩
      refine hpops.dset ?_
      intro x hx
      have hx1 := fyShuffle_mem _ hx
      rcases topUpGo_mem hpops (fun a haa => haa) _ _ _ _ htop x hx1 with h1 | h1
      · rcases ancGo_mem hpops (hcw ▸ hw) _ 0 [] x h1 with h2 | h2
        · exact absurd h2 (by simp)
        · exact h2
      · exact h1

theorem birthStep_inv {cfg : Cfg} {o : Oracle} {sg : ℤ} {t : ℕ} {d : Deme}
    {st st1 : SimState} {wild : ℤ} {A0 F : List ℤ}
    (hcw : cfg.wildType = wild) (hcf : dkeys cfg.initialFreqs = F) (hF : F ≠ [])
    (hinv : Inv1 wild A0 F st) (h : birthStep cfg o sg t d st = .ok st1) :
    Inv1 wild A0 F st1 := by
  rw [birthStep] at h
  split at h
  · split at h
    · injection h with h
      exact h ▸ hinv
    · split at h
      · exact absurd h (by simp)
      · exact initPopulation_inv hcw hcf hF hinv h
  · injection h with h
    exact h ▸ hinv

theorem introStep_inv {t : ℕ} {o : Oracle} {eIdx : ℕ} {e : SchedEntry} {st st1 : SimState}
    {wild : ℤ} {A0 F : List ℤ} (hinv : Inv1 wild A0 F st)
    (h : introStep t o eIdx e st = .ok st1) : Inv1 wild A0 F st1 := by
  obtain ⟨hw, hA, hFs, hpops, hclog⟩ := hinv
  rw [introStep] at h
  split at h
  · injection h with h
    exact h ▸ ⟨hw, hA, hFs, hpops, hclog⟩
  · rename_i popAlleles hp
    split at h
    · injection h with h
      exact h ▸ ⟨hw, hA, hFs, hpops, hclog⟩
    · split at h
      · exact absurd h (by simp)
      · injection h with h
        subst h
        have hsup : ∀ a ∈ st.alleles,
            a ∈ (if e.allele ∈ st.alleles then st.alleles else st.alleles ++ [e.allele]) := by
          intro a haa
          split
          · exact haa
          · exact List.mem_append_left _ haa
        have hallele : e.allele ∈
            (if e.allele ∈ st.alleles then st.alleles else st.alleles ++ [e.allele]) := by
          split
          · assumption
          · exact List.mem_append_right _ (List.mem_singleton.mpr rfl)
        refine ⟨hsup _ hw, fun a haa => hsup _ (hA a haa), fun a haa => hsup _ (hFs a haa),
          ?_, hclog⟩
        refine (hpops.mono hsup).dset ?_
        intro x hx
        rcases introWrite_mem hx with h1 | h1
        · exact hsup x (hpops e.population popAlleles hp x h1)
        · exact h1 ▸ hallele

theorem handleNewAlleles_inv {cfg : Cfg} {o : Oracle} {t : ℕ} {st st1 : SimState}
    {wild : ℤ} {A0 F : List ℤ} (hinv : Inv1 wild A0 F st)
    (h : handleNewAlleles cfg o t st = .ok st1) : Inv1 wild A0 F st1 := by
  rw [handleNewAlleles] at h
  split at h
  · injection h with h
    exact h ▸ hinv
  · exact @foldE_pres _ _ (Inv1 wild A0 F) _
      (fun a s s1 hP hstep => introStep_inv hP hstep) _ st st1 hinv h

theorem evolveStep_inv {cfg : Cfg} {o : Oracle} {t : ℕ} {name : String} {st st1 : SimState}
    {wild : ℤ} {A0 F : List ℤ} (hcw : cfg.wildType = wild) (hinv : Inv1 wild A0 F st)
    (h : evolveStep cfg o t name st = .ok st1) : Inv1 wild A0 F st1 := by
  obtain ⟨hw, hA, hFs, hpops, hclog⟩ := hinv
  rw [evolveStep] at h
  split at h
  · exact absurd h (by simp)
  · rename_i deme hdeme
    split at h
    · injection h with h
      subst h
      exact ⟨hw, hA, hFs, hpops.dset (by simp), hclog⟩
    · split at h
      · exact absurd h (by simp)
      · rename_i oldAlleles hold
        split at h
        · injection h with h
          exact h ▸ ⟨hw, hA, hFs, hpops, hclog⟩
        · rename_i hne
          split at h
          · exact absurd h (by simp)
          · rename_i weights hweights
            split at h
            · injection h with h
              subst h
              exact ⟨hw, hA, hFs, hpops.dset (by simp), hclog⟩
            · split at h
              · exact absurd h (by simp)
              · rename_i pops2 hmut
                injection h with h
                subst h
                refine ⟨hw, hA, hFs, ?_, hclog⟩
                refine handleMutations_popsIn (hcw ▸ hw) (fun a haa => haa) ?_ hmut
                refine hpops.dset ?_
                intro x hx
                have holdne : oldAlleles ≠ [] := by
                  simpa [List.isEmpty_iff] using hne
                exact hpops name oldAlleles hold x (choicesK_mem holdne _ _ _ hx)

theorem censusStep_inv {zf : List (ℤ × ℚ)} {t : ℕ} {name : String} {st st1 : SimState}
    {wild : ℤ} {A0 F : List ℤ} (hzf : ∀ a ∈ A0, dget? zf a = some 0)
    (hinv : Inv1 wild A0 F st) (h : censusStep zf t name st = .ok st1) :
    Inv1 wild A0 F st1 := by
  obtain ⟨hw, hA, hFs, hpops, hclog⟩ := hinv
  rw [censusStep] at h
  split at h
  · exact absurd h (by simp)
  · rename_i popData hp
    split at h
    · exact absurd h (by simp)
    · rename_i recs hrecs
      injection h with h
      subst h
      refine ⟨hw, hA, hFs, hpops, ?_⟩
      intro c hc
      rcases List.mem_append.mp hc with h1 | h1
      · exact hclog c h1
      · rw [List.mem_singleton] at h1
        subst h1
        dsimp only
        by_cases hemp : popData.isEmpty
        · rw [if_pos hemp]
          refine ⟨?_, ?_⟩
          · intro a haa
            exact ⟨0, hzf a haa, fun _ => rfl⟩
          · intro hne
            exact absurd (by simpa [List.isEmpty_iff] using hemp) hne
        · rw [if_neg hemp]
          have hne : popData ≠ [] := by simpa [List.isEmpty_iff] using hemp
          have hsub : ∀ a ∈ popData, a ∈ st.alleles := hpops name popData hp
          refine ⟨?_, fun _ => freqRecord_sum hne hsub⟩
          intro a haa
          refine ⟨(popData.count a : ℚ) / (popData.length : ℚ), ?_, ?_⟩
          · rw [freqRecord, dget?_freqDict, if_pos (hA a haa)]
          · intro hnotin
            rw [List.count_eq_zero.mpr hnotin]
            simp

theorem genBody_inv {cfg : Cfg} {o : Oracle} {sg : ℤ} {t : ℕ} {st st1 : SimState}
    {wild : ℤ} {A0 F : List ℤ}
    (hcw : cfg.wildType = wild) (hcf : dkeys cfg.initialFreqs = F) (hF : F ≠ [])
    (hinv : Inv1 wild A0 F st) (h : genBody cfg o sg t st = .ok st1) : Inv1 wild A0 F st1 := by
  rw [genBody] at h
  have hinv0 : Inv1 wild A0 F { st with genLog := st.genLog ++ [t] } := hinv
  split at h
  · exact absurd h (by simp)
  · rename_i st2 hbirths
    have hinv2 : Inv1 wild A0 F st2 :=
      @foldE_pres _ _ (Inv1 wild A0 F) _
        (fun a s s1 hP hstep => birthStep_inv hcw hcf hF hP hstep)
        cfg.graph.demes _ st2 hinv0 hbirths
    split at h
    · exact absurd h (by simp)
    · rename_i st3 hnew
      have hinv3 : Inv1 wild A0 F st3 := handleNewAlleles_inv hinv2 hnew
      split at h
      · exact absurd h (by simp)
      · rename_i st4 hev
        have hinv4 : Inv1 wild A0 F st4 :=
          @foldE_pres _ _ (Inv1 wild A0 F) _
            (fun a s s1 hP hstep => evolveStep_inv hcw hP hstep)
            (dkeys st3.pops) st3 st4 hinv3 hev
        have hinv5 : Inv1 wild A0 F { st4 with pops := handlePulses cfg.graph o t (handleMigration cfg.graph o t st4.pops) } := by
          obtain ⟨hw, hA, hFs, hpops, hclog⟩ := hinv4
          exact ⟨hw, hA, hFs, handlePulses_popsIn (handleMigration_popsIn hpops), hclog⟩
        have hzf : ∀ a ∈ A0, dget? (freqDict st.alleles (fun _ => 0)) a = some 0 := by
          intro a haa
          rw [dget?_freqDict, if_pos (hinv.2.1 a haa)]
        exact @foldE_pres _ _ (Inv1 wild A0 F) _
          (fun a s s1 hP hstep => censusStep_inv hzf hP hstep)
          _ _ st1 hinv5 h

theorem loopGo_inv {cfg : Cfg} {o : Oracle} {sg : ℤ} {wild : ℤ} {A0 F : List ℤ}
    (hcw : cfg.wildType = wild) (hcf : dkeys cfg.initialFreqs = F) (hF : F ≠ []) :
    ∀ (t : ℕ) (st st1 : SimState), Inv1 wild A0 F st → loopGo cfg o sg t st = .ok st1 →
      Inv1 wild A0 F st1 := by
  intro t
  induction t with
  | zero =>
    intro st st1 hinv h
    rw [loopGo] at h
    exact genBody_inv hcw hcf hF hinv h
  | succ u ih =>
    intro st st1 hinv h
    rw [loopGo] at h
    split at h
    · exact absurd h (by simp)
    · rename_i st2 hbody
      exact ih st2 st1 (genBody_inv hcw hcf hF hinv hbody) h

theorem runFull_inv {cfg : Cfg} {o : Oracle} {st st1 : SimState} {wild : ℤ} {A0 F : List ℤ}
    (hcw : cfg.wildType = wild) (hcf : dkeys cfg.initialFreqs = F) (hF : F ≠ [])
    (hinv : Inv1 wild A0 F st) (h : runFull cfg o st = .ok st1) : Inv1 wild A0 F st1 := by
  rw [runFull] at h
  split at h
  · injection h with h
    exact h ▸ hinv
  · exact loopGo_inv hcw hcf hF _ st st1 hinv h

/-! ## Claim C1 -/

/-- Claim C1 (amended): for a simulator built by construction whose wild
type is among the construction-time active alleles, every census record
of a completed run has a key for every construction-time active allele,
absent alleles are recorded as 0, and the record of every non-extinct
census (the collection at census time is non-empty) sums to 1. -/
theorem C1_amended (graph : Graph) (newCfg : List NewEntry) (allelesArg : List ℤ)
    (freqSpec : FreqSpec) (mutationRate : ℚ) (wildType : ℤ) (selection : List (ℤ × ℚ))
    (o : Oracle) (cfg : Cfg) (st0 res : SimState)
    (hmk : mkSim graph newCfg allelesArg freqSpec mutationRate wildType selection
      = .ok (cfg, st0))
    (hw : cfg.wildType ∈ st0.alleles)
    (hrun : runFull cfg o st0 = .ok res) :
    ∀ c ∈ res.clog,
      (∀ a ∈ st0.alleles, ∃ v, dget? c.record a = some v ∧ (a ∉ c.coll → v = 0)) ∧
      (c.coll ≠ [] → sumV c.record = 1) := by
  obtain ⟨hpops0, -, -, hclog0, -, -, -, hFne, hFsub, -⟩ := mkSim_shape hmk
  have hinv0 : Inv1 cfg.wildType st0.alleles (dkeys cfg.initialFreqs) st0 := by
    refine ⟨hw, fun a ha => ha, hFsub, ?_, ?_⟩
    · intro name p hp
      rw [hpops0] at hp
      simp [dget?] at hp
    · intro c hc
      rw [hclog0] at hc
      simp at hc
  have hfin := runFull_inv rfl rfl hFne hinv0 hrun
  exact hfin.2.2.2.2

/-- Claim C1 counterexample graph: one deme of size 2 born at time 1. -/
def gC1 : Graph := ⟨[⟨"A", some 1, [⟨2⟩], [], [], fun _ => 2⟩], [], []⟩

/-- Claim C1 counterexample construction: the wild type 0 is scheduled
as a future allele (start time 1000, never reached), so the active
alleles are `[1]` and backward mutation writes an inactive allele. -/
def simC1cex : Except PyErr (Cfg × SimState) :=
  mkSim gC1 [⟨some 0, some "A", some 1000, none⟩] [0, 1] (.scalar (1/2)) (1/2) 0 []

/-- The counterexample run (zeros oracle: every mutation draw fires). -/
def runC1cex : Except PyErr SimState :=
  match simC1cex with
  | .ok (c, st) => runFull c oracle0 st
  | .error e => .error e

/-- True when some census of the counterexample run has a non-empty
collection whose frequency record does not sum to 1. -/
def c1Bad : Bool :=
  match runC1cex with
  | .ok st => st.clog.any (fun c => !c.coll.isEmpty && !(decide (sumV c.record = 1)))
  | .error _ => false

/-- Claim C1 counterexample: the constructed run completes and contains
a census with a non-empty collection whose recorded frequencies sum to
0, not 1 (both individuals mutated back to the wild type 0, which is
not among the active alleles, so the record over the active alleles is
all zero while the population is alive). -/
theorem C1_counterexample : c1Bad = true := by
  with_unfolding_all rfl

/-- Claim C1 witness graph: one deme of size 2 born at time 1, wild
type 0 active. -/
def gC1w : Graph := ⟨[⟨"A", some 1, [⟨2⟩], [], [], fun _ => 2⟩], [], []⟩

/-- Claim C1 witness construction (no schedule, wild type active). -/
def simC1w : Except PyErr (Cfg × SimState) :=
  mkSim gC1w [] [0, 1] (.scalar (1/2)) 0 0 []

/-- Configuration component of the witness construction. -/
def cfgC1w : Cfg :=
  match simC1w with
  | .ok (c, _) => c
  | .error _ => ⟨gC1w, [], 0, 0, [], [], []⟩

/-- State component of the witness construction. -/
def stC1w : SimState :=
  match simC1w with
  | .ok (_, s) => s
  | .error _ => ⟨[], [], [], [], []⟩

/-- Final state of the witness run. -/
def resC1w : SimState :=
  match runFull cfgC1w oracle0 stC1w with
  | .ok s => s
  | .error _ => ⟨[], [], [], [], []⟩

set_option maxRecDepth 4000 in
/-- Claim C1 witness: the amended claim applied to a concrete completed
run, stated as the census-log soundness predicate of that run. -/
theorem C1_witness : ClogOK stC1w.alleles resC1w.clog := by
  refine C1_amended gC1w [] [0, 1] (.scalar (1/2)) 0 0 [] oracle0 cfgC1w stC1w resC1w
    ?_ ?_ ?_
  · with_unfolding_all rfl
  · with_unfolding_all decide
  · with_unfolding_all rfl

/-! ### The full-allele-set invariant (claim C8) -/

/-- Run invariant for the full-allele-set claim: the active list stays
inside `AP`, every stored individual carries an allele of `AP`, and so
does every individual observed at any census. -/
def Inv8 (AP : List ℤ) (st : SimState) : Prop :=
  (∀ a ∈ st.alleles, a ∈ AP) ∧ PopsIn AP st.pops ∧
  (∀ c ∈ st.clog, ∀ a ∈ c.coll, a ∈ AP)

theorem foldE_pres_mem {α σ : Type} {P : σ → Prop} {f : α → σ → Except PyErr σ} :
    ∀ (l : List α), (∀ a ∈ l, ∀ s s1, P s → f a s = .ok s1 → P s1) →
      ∀ (s s1 : σ), P s → foldE f l s = .ok s1 → P s1 := by
  intro l
  induction l with
  | nil =>
    intro _ s s1 hP h
    simp only [foldE] at h
    injection h with h
    exact h ▸ hP
  | cons a l ih =>
    intro hstep s s1 hP h
    simp only [foldE] at h
    cases hf : f a s with
    | error e => rw [hf] at h; exact absurd h (by simp)
    | ok s2 =>
      rw [hf] at h
      exact ih (fun b hb => hstep b (List.mem_cons_of_mem a hb)) s2 s1
        (hstep a (List.mem_cons_self a l) s s2 hP hf) h

theorem mem_enum_snd {α : Type} {l : List α} {p : ℕ × α} (hp : p ∈ l.enum) : p.2 ∈ l := by
  have h := List.mem_map_of_mem Prod.snd hp
  rwa [List.enum_map_snd] at h

theorem initPopulation_inv8 {cfg : Cfg} {o : Oracle} {t : ℕ} {name : String} {size : ℚ}
    {ancestors : List String} {proportions : List ℚ} {st st1 : SimState} {AP : List ℤ}
    (hcw : cfg.wildType ∈ AP) (hcf : ∀ a ∈ dkeys cfg.initialFreqs, a ∈ AP)
    (hF : dkeys cfg.initialFreqs ≠ []) (hinv : Inv8 AP st)
    (h : initPopulation cfg o t name size ancestors proportions st = .ok st1) :
    Inv8 AP st1 := by
  obtain ⟨hA, hpops, hclog⟩ := hinv
  rw [initPopulation] at h
  by_cases ha : ancestors.isEmpty
  · rw [if_pos ha] at h
    injection h with h
    subst h
    refine ⟨hA, hpops.dset ?_, hclog⟩
    intro x hx
    exact hcf x (choicesK_mem hF _ _ _ hx)
  · rw [if_neg ha] at h
    split at h
    · exact absurd h (by simp)
    · rename_i topped htop
      injection h with h
      subst h
      refine ⟨hA, hpops.dset ?_, hclog⟩
      intro x hx
      have hx1 := fyShuffle_mem _ hx
      rcases topUpGo_mem hpops hA _ _ _ _ htop x hx1 with h1 | h1
      · rcases ancGo_mem hpops hcw _ 0 [] x h1 with h2 | h2
        · exact absurd h2 (by simp)
        · exact h2
      · exact h1

theorem birthStep_inv8 {cfg : Cfg} {o : Oracle} {sg : ℤ} {t : ℕ} {d : Deme}
    {st st1 : SimState} {AP : List ℤ}
    (hcw : cfg.wildType ∈ AP) (hcf : ∀ a ∈ dkeys cfg.initialFreqs, a ∈ AP)
    (hF : dkeys cfg.initialFreqs ≠ [])
    (hinv : Inv8 AP st) (h : birthStep cfg o sg t d st = .ok st1) : Inv8 AP st1 := by
  rw [birthStep] at h
  split at h
  · split at h
    · injection h with h
      exact h ▸ hinv
    · split at h
      · exact absurd h (by simp)
      · exact initPopulation_inv8 hcw hcf hF hinv h
  · injection h with h
    exact h ▸ hinv

theorem introStep_inv8 {t : ℕ} {o : Oracle} {eIdx : ℕ} {e : SchedEntry} {st st1 : SimState}
    {AP : List ℤ} (he : e.allele ∈ AP) (hinv : Inv8 AP st)
    (h : introStep t o eIdx e st = .ok st1) : Inv8 AP st1 := by
  obtain ⟨hA, hpops, hclog⟩ := hinv
  rw [introStep] at h
  split at h
  · injection h with h
    exact h ▸ ⟨hA, hpops, hclog⟩
  · rename_i popAlleles hp
    split at h
    · injection h with h
      exact h ▸ ⟨hA, hpops, hclog⟩
    · split at h
      · exact absurd h (by simp)
      · injection h with h
        subst h
        refine ⟨?_, hpops.dset ?_, hclog⟩
        · intro a haa
          split at haa
          · exact hA a haa
          · rcases List.mem_append.mp haa with h1 | h1
            · exact hA a h1
            · exact (List.mem_singleton.mp h1) ▸ he
        · intro x hx
          rcases introWrite_mem hx with h1 | h1
          · exact hpops e.population popAlleles hp x h1
          · exact h1 ▸ he

theorem handleNewAlleles_inv8 {cfg : Cfg} {o : Oracle} {t : ℕ} {st st1 : SimState}
    {AP : List ℤ}
    (hsched : ∀ (tt : ℤ) (es : List SchedEntry), dget? cfg.allelesByTime tt = some es →
      ∀ e ∈ es, e.allele ∈ AP)
    (hinv : Inv8 AP st) (h : handleNewAlleles cfg o t st = .ok st1) : Inv8 AP st1 := by
  rw [handleNewAlleles] at h
  split at h
  · injection h with h
    exact h ▸ hinv
  · rename_i entries hes
    have hent := hsched _ _ hes
    exact foldE_pres_mem entries.enum
      (fun ie hie s s1 hP hstep => introStep_inv8 (hent ie.2 (mem_enum_snd hie)) hP hstep)
      st st1 hinv h

theorem evolveStep_inv8 {cfg : Cfg} {o : Oracle} {t : ℕ} {name : String} {st st1 : SimState}
    {AP : List ℤ} (hcw : cfg.wildType ∈ AP) (hinv : Inv8 AP st)
    (h : evolveStep cfg o t name st = .ok st1) : Inv8 AP st1 := by
  obtain ⟨hA, hpops, hclog⟩ := hinv
  rw [evolveStep] at h
  split at h
  · exact absurd h (by simp)
  · rename_i deme hdeme
    split at h
    · injection h with h
      subst h
      exact ⟨hA, hpops.dset (by simp), hclog⟩
    · split at h
      · exact absurd h (by simp)
      · rename_i oldAlleles hold
        split at h
        · injection h with h
          exact h ▸ ⟨hA, hpops, hclog⟩
        · rename_i hne
          split at h
          · exact absurd h (by simp)
          · rename_i weights hweights
            split at h
            · injection h with h
              subst h
              exact ⟨hA, hpops.dset (by simp), hclog⟩
            · split at h
              · exact absurd h (by simp)
              · rename_i pops2 hmut
                injection h with h
                subst h
                refine ⟨hA, ?_, hclog⟩
                refine handleMutations_popsIn hcw hA ?_ hmut
                refine hpops.dset ?_
                intro x hx
                have holdne : oldAlleles ≠ [] := by
                  simpa [List.isEmpty_iff] using hne
                exact hpops name oldAlleles hold x (choicesK_mem holdne _ _ _ hx)

theorem censusStep_inv8 {zf : List (ℤ × ℚ)} {t : ℕ} {name : String} {st st1 : SimState}
    {AP : List ℤ} (hinv : Inv8 AP st) (h : censusStep zf t name st = .ok st1) :
    Inv8 AP st1 := by
  obtain ⟨hA, hpops, hclog⟩ := hinv
  rw [censusStep] at h
  split at h
  · exact absurd h (by simp)
  · rename_i popData hpop
    split at h
    · exact absurd h (by simp)
    · rename_i recs hrecs
      injection h with h
      subst h
      refine ⟨hA, hpops, ?_⟩
      intro c hc
      rcases List.mem_append.mp hc with h1 | h1
      · exact hclog c h1
      · intro a ha
        rw [List.mem_singleton.mp h1] at ha
        exact hpops name popData hpop a ha

theorem genBody_inv8 {cfg : Cfg} {o : Oracle} {sg : ℤ} {t : ℕ} {st st1 : SimState}
    {AP : List ℤ}
    (hcw : cfg.wildType ∈ AP) (hcf : ∀ a ∈ dkeys cfg.initialFreqs, a ∈ AP)
    (hF : dkeys cfg.initialFreqs ≠ [])
    (hsched : ∀ (tt : ℤ) (es : List SchedEntry), dget? cfg.allelesByTime tt = some es →
      ∀ e ∈ es, e.allele ∈ AP)
    (hinv : Inv8 AP st) (h : genBody cfg o sg t st = .ok st1) : Inv8 AP st1 := by
  rw [genBody] at h
  have hinv0 : Inv8 AP { st with genLog := st.genLog ++ [t] } := hinv
  split at h
  · exact absurd h (by simp)
  · rename_i st2 hbirths
    have hinv2 : Inv8 AP st2 :=
      @foldE_pres _ _ (Inv8 AP) _
        (fun a s s1 hP hstep => birthStep_inv8 hcw hcf hF hP hstep)
        cfg.graph.demes _ st2 hinv0 hbirths
    split at h
    · exact absurd h (by simp)
    · rename_i st3 hnew
      have hinv3 : Inv8 AP st3 := handleNewAlleles_inv8 hsched hinv2 hnew
      split at h
      · exact absurd h (by simp)
      · rename_i st4 hev
        have hinv4 : Inv8 AP st4 :=
          @foldE_pres _ _ (Inv8 AP) _
            (fun a s s1 hP hstep => evolveStep_inv8 hcw hP hstep)
            (dkeys st3.pops) st3 st4 hinv3 hev
        have hinv5 : Inv8 AP { st4 with pops := handlePulses cfg.graph o t (handleMigration cfg.graph o t st4.pops) } := by
          obtain ⟨hA, hpops, hclog⟩ := hinv4
          exact ⟨hA, handlePulses_popsIn (handleMigration_popsIn hpops), hclog⟩
        exact @foldE_pres _ _ (Inv8 AP) _
          (fun a s s1 hP hstep => censusStep_inv8 hP hstep)
          _ _ st1 hinv5 h

theorem loopGo_inv8 {cfg : Cfg} {o : Oracle} {sg : ℤ} {AP : List ℤ}
    (hcw : cfg.wildType ∈ AP) (hcf : ∀ a ∈ dkeys cfg.initialFreqs, a ∈ AP)
    (hF : dkeys cfg.initialFreqs ≠ [])
    (hsched : ∀ (tt : ℤ) (es : List SchedEntry), dget? cfg.allelesByTime tt = some es →
      ∀ e ∈ es, e.allele ∈ AP) :
    ∀ (t : ℕ) (st st1 : SimState), Inv8 AP st → loopGo cfg o sg t st = .ok st1 →
      Inv8 AP st1 := by
  intro t
  induction t with
  | zero =>
    intro st st1 hinv h
    rw [loopGo] at h
    exact genBody_inv8 hcw hcf hF hsched hinv h
  | succ u ih =>
    intro st st1 hinv h
    rw [loopGo] at h
    split at h
    · exact absurd h (by simp)
    · rename_i st2 hbody
      exact ih st2 st1 (genBody_inv8 hcw hcf hF hsched hinv hbody) h

theorem runFull_inv8 {cfg : Cfg} {o : Oracle} {st st1 : SimState} {AP : List ℤ}
    (hcw : cfg.wildType ∈ AP) (hcf : ∀ a ∈ dkeys cfg.initialFreqs, a ∈ AP)
    (hF : dkeys cfg.initialFreqs ≠ [])
    (hsched : ∀ (tt : ℤ) (es : List SchedEntry), dget? cfg.allelesByTime tt = some es →
      ∀ e ∈ es, e.allele ∈ AP)
    (hinv : Inv8 AP st) (h : runFull cfg o st = .ok st1) : Inv8 AP st1 := by
  rw [runFull] at h
  split at h
  · injection h with h
    exact h ▸ hinv
  · exact loopGo_inv8 hcw hcf hF hsched _ st st1 hinv h

/-! ## Claim C8 -/

/-- Claim C8 (amended): for a simulator built by construction whose wild
type belongs to the configured full allele set, the full-allele-set
invariant holds at every point during a run: it holds at every census
observation and at the final state, and each of the six operator phases
of the generation body (population birth, allele introduction,
drift/selection/mutation, continuous migration, pulse migration)
preserves it. -/
theorem C8_amended (graph : Graph) (newCfg : List NewEntry) (allelesArg : List ℤ)
    (freqSpec : FreqSpec) (mutationRate : ℚ) (wildType : ℤ) (selection : List (ℤ × ℚ))
    (o : Oracle) (cfg : Cfg) (st0 res : SimState)
    (hmk : mkSim graph newCfg allelesArg freqSpec mutationRate wildType selection
      = .ok (cfg, st0))
    (hw : cfg.wildType ∈ cfg.allPotential)
    (hrun : runFull cfg o st0 = .ok res) :
    (∀ c ∈ res.clog, ∀ a ∈ c.coll, a ∈ cfg.allPotential) ∧
    PopsIn cfg.allPotential res.pops ∧
    (∀ a ∈ res.alleles, a ∈ cfg.allPotential) ∧
    (∀ (sg : ℤ) (t : ℕ) (d : Deme) (st st1 : SimState), Inv8 cfg.allPotential st →
      birthStep cfg o sg t d st = .ok st1 → Inv8 cfg.allPotential st1) ∧
    (∀ (t : ℕ) (st st1 : SimState), Inv8 cfg.allPotential st →
      handleNewAlleles cfg o t st = .ok st1 → Inv8 cfg.allPotential st1) ∧
    (∀ (t : ℕ) (name : String) (st st1 : SimState), Inv8 cfg.allPotential st →
      evolveStep cfg o t name st = .ok st1 → Inv8 cfg.allPotential st1) ∧
    (∀ (t : ℕ) (pops : List (String × List ℤ)), PopsIn cfg.allPotential pops →
      PopsIn cfg.allPotential (handleMigration cfg.graph o t pops)) ∧
    (∀ (t : ℕ) (pops : List (String × List ℤ)), PopsIn cfg.allPotential pops →
      PopsIn cfg.allPotential (handlePulses cfg.graph o t pops)) := by
  obtain ⟨hpops0, -, -, hclog0, -, hcw0, -, hFne, hFsub, hAP, hact, hsched0⟩ :=
    mkSim_shape hmk
  have hw0 : wildType ∈ allPotentialOf allelesArg := by
    rw [← hcw0, ← hAP]
    exact hw
  have hA0 : ∀ a ∈ st0.alleles, a ∈ cfg.allPotential := by
    intro a ha
    rw [hAP]
    exact hact hw0 a ha
  have hcf : ∀ a ∈ dkeys cfg.initialFreqs, a ∈ cfg.allPotential :=
    fun a ha => hA0 a (hFsub a ha)
  have hsched : ∀ (tt : ℤ) (es : List SchedEntry), dget? cfg.allelesByTime tt = some es →
      ∀ e ∈ es, e.allele ∈ cfg.allPotential := by
    intro tt es hes e he
    rw [hAP]
    exact hsched0 tt es hes e he
  have hinv0 : Inv8 cfg.allPotential st0 := by
    refine ⟨hA0, ?_, ?_⟩
    · intro name p hp
      rw [hpops0] at hp
      simp [dget?] at hp
    · intro c hc
      rw [hclog0] at hc
      simp at hc
  have hfin := runFull_inv8 hw hcf hFne hsched hinv0 hrun
  exact ⟨hfin.2.2, hfin.2.1, hfin.1,
    fun sg t d st st1 hP hstep => birthStep_inv8 hw hcf hFne hP hstep,
    fun t st st1 hP hstep => handleNewAlleles_inv8 hsched hP hstep,
    fun t name st st1 hP hstep => evolveStep_inv8 hw hP hstep,
    fun t pops hP => handleMigration_popsIn hP,
    fun t pops hP => handlePulses_popsIn hP⟩

/-- Claim C8 counterexample graph: one deme of size 2 born at time 1. -/
def gC8 : Graph := ⟨[⟨"A", some 1, [⟨2⟩], [], [], fun _ => 2⟩], [], []⟩

/-- Oracle that makes every mutation draw fire at generation 0 and none
elsewhere. -/
def o8 : Oracle := { oracle0 with mutReal := fun t _ _ => if t = 0 then 0 else 1 / 2 }

/-- Claim C8 counterexample construction: the wild type 5 is not a
member of the configured allele universe `[1, 2]` (construction does not
validate this), and backward mutation writes the wild type
unconditionally. -/
def simC8cex : Except PyErr (Cfg × SimState) :=
  mkSim gC8 [] [1, 2] (.scalar (1 / 2)) (1 / 2) 5 []

/-- True when some census observation of the counterexample run contains
an individual whose allele is outside the configured full allele set. -/
def c8Bad : Bool :=
  match simC8cex with
  | .ok (c, st) =>
    match runFull c o8 st with
    | .ok res => res.clog.any (fun ce => ce.coll.any (fun a => !(decide (a ∈ c.allPotential))))
    | .error _ => false
  | .error _ => false

/-- Claim C8 counterexample: the run completes and its generation-0
census observes the collection `[5, 5]` — both individuals mutated back
to the wild type 5, which is outside the configured full allele set
`[1, 2]`, refuting the unconditional invariant. -/
theorem C8_counterexample : c8Bad = true := by
  with_unfolding_all rfl

/-- Claim C8 witness graph: one deme of size 2 born at time 1, wild type
0 inside the universe `[0, 1]`. -/
def gC8w : Graph := ⟨[⟨"A", some 1, [⟨2⟩], [], [], fun _ => 2⟩], [], []⟩

/-- Claim C8 witness construction. -/
def simC8w : Except PyErr (Cfg × SimState) :=
  mkSim gC8w [] [0, 1] (.scalar (1 / 2)) (1 / 2) 0 []

/-- Configuration component of the C8 witness construction. -/
def cfgC8w : Cfg :=
  match simC8w with
  | .ok (c, _) => c
  | .error _ => ⟨gC8w, [], 0, 0, [], [], []⟩

/-- State component of the C8 witness construction. -/
def stC8w : SimState :=
  match simC8w with
  | .ok (_, s) => s
  | .error _ => ⟨[], [], [], [], []⟩

/-- Final state of the C8 witness run. -/
def resC8w : SimState :=
  match runFull cfgC8w oracle0 stC8w with
  | .ok s => s
  | .error _ => ⟨[], [], [], [], []⟩

set_option maxRecDepth 4000 in
/-- Claim C8 witness: the amended claim applied to a concrete completed
run. -/
theorem C8_witness :
    (∀ c ∈ resC8w.clog, ∀ a ∈ c.coll, a ∈ cfgC8w.allPotential) ∧
    PopsIn cfgC8w.allPotential resC8w.pops ∧
    (∀ a ∈ resC8w.alleles, a ∈ cfgC8w.allPotential) ∧
    (∀ (sg : ℤ) (t : ℕ) (d : Deme) (st st1 : SimState), Inv8 cfgC8w.allPotential st →
      birthStep cfgC8w oracle0 sg t d st = .ok st1 → Inv8 cfgC8w.allPotential st1) ∧
    (∀ (t : ℕ) (st st1 : SimState), Inv8 cfgC8w.allPotential st →
      handleNewAlleles cfgC8w oracle0 t st = .ok st1 → Inv8 cfgC8w.allPotential st1) ∧
    (∀ (t : ℕ) (name : String) (st st1 : SimState), Inv8 cfgC8w.allPotential st →
      evolveStep cfgC8w oracle0 t name st = .ok st1 → Inv8 cfgC8w.allPotential st1) ∧
    (∀ (t : ℕ) (pops : List (String × List ℤ)), PopsIn cfgC8w.allPotential pops →
      PopsIn cfgC8w.allPotential (handleMigration cfgC8w.graph oracle0 t pops)) ∧
    (∀ (t : ℕ) (pops : List (String × List ℤ)), PopsIn cfgC8w.allPotential pops →
      PopsIn cfgC8w.allPotential (handlePulses cfgC8w.graph oracle0 t pops)) := by
  refine C8_amended gC8w [] [0, 1] (.scalar (1 / 2)) (1 / 2) 0 [] oracle0 cfgC8w stC8w
    resC8w ?_ ?_ ?_
  · with_unfolding_all rfl
  · with_unfolding_all decide
  · with_unfolding_all rfl

/-! ## Scenario 1 of the spec (claim C9) -/

/-- Scenario 1 deme: one population, infinite start time, constant
size 20. -/
def d9 : Deme := ⟨"A", none, [⟨20⟩], [], [], fun _ => 20⟩

/-- Scenario 1 graph. -/
def g9 : Graph := ⟨[d9], [], []⟩

/-- The configuration the scenario construction produces. -/
def cfg9 : Cfg := ⟨g9, [0, 1], 0, 0, [(0, 1), (1, 1)], [(0, 1 / 2), (1, 1 - 1 / 2)], []⟩

/-- The initial state the scenario construction produces. -/
def st9 : SimState := ⟨[0, 1], [], [], [], []⟩

/-- The loop invariant of the scenario run after `n` censuses: the
active alleles stay `[0, 1]`, the single population holds 20
individuals carrying alleles of `[0, 1]`, and the history holds `n`
records that each sum to 1. -/
def P9 (n : ℕ) (st : SimState) : Prop :=
  st.alleles = [0, 1] ∧
  (∃ p, st.pops = [("A", p)] ∧ p.length = 20 ∧ ∀ a ∈ p, a ∈ ([0, 1] : List ℤ)) ∧
  (∃ recs, st.history = [("A", recs)] ∧ recs.length = n ∧ ∀ r ∈ recs, sumV r = 1)

theorem count01_length {p : List ℤ} (h : ∀ a ∈ p, a ∈ ([0, 1] : List ℤ)) :
    p.count 0 + p.count 1 = p.length := by
  induction p with
  | nil => rfl
  | cons a l ih =>
    have ha := h a (List.mem_cons_self a l)
    have hl := ih (fun b hb => h b (List.mem_cons_of_mem a hb))
    rcases List.mem_cons.mp ha with h0 | h0
    · subst h0
      simp [List.count_cons]
      omega
    · have h1 : a = 1 := by simpa using h0
      subst h1
      simp [List.count_cons]
      omega

theorem sum_freqRecord01 {p : List ℤ} (hmem : ∀ a ∈ p, a ∈ ([0, 1] : List ℤ))
    (hne : p.length ≠ 0) : sumV (freqRecord [0, 1] p) = 1 := by
  have hfr : freqRecord [0, 1] p =
      [(0, (p.count 0 : ℚ) / (p.length : ℚ)), (1, (p.count 1 : ℚ) / (p.length : ℚ))] := rfl
  rw [hfr]
  show (p.count 0 : ℚ) / (p.length : ℚ) + ((p.count 1 : ℚ) / (p.length : ℚ) + 0) = 1
  rw [add_zero, div_add_div_same]
  rw [show ((p.count 0 : ℚ) + (p.count 1 : ℚ)) = ((p.count 0 + p.count 1 : ℕ) : ℚ) from by
    push_cast
    ring]
  rw [count01_length hmem]
  exact div_self (Nat.cast_ne_zero.mpr hne)

theorem mapM_fit9 {p : List ℤ} (hmem : ∀ a ∈ p, a ∈ ([0, 1] : List ℤ)) :
    p.mapM (fun a => dget? cfg9.fitness a) = some (p.map (fun _ => (1 : ℚ))) := by
  induction p with
  | nil => rfl
  | cons a l ih =>
    have ha : dget? cfg9.fitness a = some 1 := by
      rcases List.mem_cons.mp (hmem a (List.mem_cons_self a l)) with h0 | h0
      · subst h0
        rfl
      · have h1 : a = 1 := by simpa using h0
        subst h1
        rfl
    rw [List.mapM_cons, ha, ih (fun b hb => hmem b (List.mem_cons_of_mem a hb))]
    rfl

theorem handleNewAlleles9 (o : Oracle) (t : ℕ) (st : SimState) :
    handleNewAlleles cfg9 o t st = .ok st := rfl

theorem handleMigration9 (o : Oracle) (t : ℕ) (ps : List (String × List ℤ)) :
    handleMigration cfg9.graph o t ps = ps := rfl

theorem handlePulses9 (o : Oracle) (t : ℕ) (ps : List (String × List ℤ)) :
    handlePulses cfg9.graph o t ps = ps := rfl

theorem handleMutations9 (w : ℤ) (al : List ℤ) (ps : List (String × List ℤ))
    (n : String) (ρ : ℕ → ℚ) (ν : ℕ → ℕ) :
    handleMutations cfg9.mutationRate w al ps n ρ ν = .ok ps := by
  rw [handleMutations, if_pos (show cfg9.mutationRate ≤ 0 from by decide)]

theorem birthStep9_present {o : Oracle} {sg : ℤ} {t : ℕ} {st : SimState}
    (h : (dget? st.pops "A").isSome = true) :
    foldE (birthStep cfg9 o sg t) cfg9.graph.demes st = .ok st := by
  have hb : birthStep cfg9 o sg t d9 st = .ok st := by
    rw [birthStep]
    dsimp only [d9]
    split
    all_goals rfl
  show foldE (birthStep cfg9 o sg t) [d9] st = .ok st
  simp only [foldE]
  rw [hb]

theorem sum_map_one (p : List ℤ) : (p.map (fun _ => (1 : ℚ))).sum = p.length := by
  induction p with
  | nil => simp
  | cons a l ih =>
    simp only [List.map_cons, List.sum_cons, List.length_cons, ih]
    push_cast
    ring

/-- The resampled collection of the scenario evolution step. -/
def p1of (o : Oracle) (t : ℕ) (p : List ℤ) : List ℤ :=
  choicesK p (p.map (fun _ => (1 : ℚ))) 20 (o.selReal t "A")

theorem evolveStep9 {o : Oracle} {t : ℕ} {st : SimState} {p : List ℤ}
    (halleles : st.alleles = [0, 1]) (hpops : st.pops = [("A", p)])
    (hne : p ≠ []) (hmem : ∀ a ∈ p, a ∈ ([0, 1] : List ℤ)) :
    evolveStep cfg9 o t "A" st = .ok { st with pops := [("A", p1of o t p)] } := by
  rw [evolveStep]
  rw [show findDeme cfg9.graph "A" = some d9 from rfl]
  dsimp only [d9]
  rw [if_neg (show ¬ pyInt 20 ≤ 0 from by decide)]
  rw [hpops]
  rw [show dget? [("A", p)] "A" = some p from by simp [dget?]]
  dsimp only
  rw [if_neg (show ¬ p.isEmpty = true from by simp [List.isEmpty_iff, hne])]
  rw [mapM_fit9 hmem]
  dsimp only
  rw [if_neg (show ¬ (p.map (fun _ => (1 : ℚ))).sum = 0 from ?_)]
  · rw [handleMutations9]
    dsimp only
    rw [show (pyInt (20 : ℚ)).toNat = 20 from by decide]
    simp [dset, p1of]
  · rw [sum_map_one]
    exact Nat.cast_ne_zero.mpr (by simpa using hne)

theorem censusStep9 {zf : List (ℤ × ℚ)} {t : ℕ} {st : SimState} {p : List ℤ}
    {recs : List (List (ℤ × ℚ))}
    (hpops : st.pops = [("A", p)]) (hhist : st.history = [("A", recs)])
    (hne : p.isEmpty = false) :
    censusStep zf t "A" st =
      .ok { st with
        history := [("A", recs ++ [freqRecord st.alleles p])],
        clog := st.clog ++ [⟨t, "A", p, freqRecord st.alleles p⟩] } := by
  rw [censusStep, hpops, hhist]
  rw [show dget? [("A", p)] "A" = some p from by simp [dget?]]
  dsimp only
  rw [show dget? [("A", recs)] "A" = some recs from by simp [dget?]]
  dsimp only
  rw [hne]
  simp [dset]

theorem genBody_ok_chain {cfg : Cfg} {o : Oracle} {sg : ℤ} {t : ℕ}
    {st stB stN stE st1 : SimState}
    (h1 : foldE (birthStep cfg o sg t) cfg.graph.demes
      { st with genLog := st.genLog ++ [t] } = .ok stB)
    (h2 : handleNewAlleles cfg o t stB = .ok stN)
    (h3 : foldE (evolveStep cfg o t) (dkeys stN.pops) stN = .ok stE)
    (h4 : foldE (censusStep (freqDict st.alleles (fun _ => 0)) t)
        (dkeys (handlePulses cfg.graph o t (handleMigration cfg.graph o t stE.pops)))
        { stE with pops := handlePulses cfg.graph o t (handleMigration cfg.graph o t stE.pops) }
        = .ok st1) :
    genBody cfg o sg t st = .ok st1 := by
  simp only [genBody]
  rw [h1]
  dsimp only
  rw [h2]
  dsimp only
  rw [h3]
  dsimp only
  exact h4

theorem genBody9_step {o : Oracle} {sg : ℤ} {t n : ℕ} {st : SimState} (hP : P9 n st) :
    ∃ st1, genBody cfg9 o sg t st = .ok st1 ∧ P9 (n + 1) st1 := by
  obtain ⟨hall, ⟨p, hpops, hlen, hmem⟩, ⟨recs, hhist, hrlen, hrsum⟩⟩ := hP
  have hnep : p ≠ [] := by
    intro hc
    rw [hc] at hlen
    exact absurd hlen (by decide)
  have hlen1 : (p1of o t p).length = 20 := choicesK_length _ _ _ _
  have hmem1 : ∀ a ∈ p1of o t p, a ∈ ([0, 1] : List ℤ) :=
    fun a ha => hmem a (choicesK_mem hnep _ _ _ ha)
  have hne1 : (p1of o t p).isEmpty = false := by
    cases hp1 : p1of o t p with
    | nil =>
      rw [hp1] at hlen1
      exact absurd hlen1 (by decide)
    | cons a l => rfl
  refine ⟨⟨[0, 1], [("A", p1of o t p)],
      [("A", recs ++ [freqRecord [0, 1] (p1of o t p)])], st.genLog ++ [t],
      st.clog ++ [⟨t, "A", p1of o t p, freqRecord [0, 1] (p1of o t p)⟩]⟩, ?_, ?_⟩
  · have hsome : (dget? st.pops "A").isSome = true := by
      rw [hpops]
      rfl
    refine @genBody_ok_chain cfg9 o sg t st _ _
      ⟨[0, 1], [("A", p1of o t p)], [("A", recs)], st.genLog ++ [t], st.clog⟩ _
      (@birthStep9_present o sg t _ hsome) (handleNewAlleles9 o t _) ?_ ?_
    · show foldE (evolveStep cfg9 o t) (dkeys st.pops)
        (⟨st.alleles, st.pops, st.history, st.genLog ++ [t], st.clog⟩ : SimState) = _
      rw [hall, hpops, hhist]
      rw [show dkeys [("A", p)] = ["A"] from rfl]
      simp only [foldE]
      rw [@evolveStep9 o t ⟨[0, 1], [("A", p)], [("A", recs)], st.genLog ++ [t], st.clog⟩ p
        rfl rfl hnep hmem]
    · rw [handleMigration9, handlePulses9]
      dsimp only
      rw [show dkeys [("A", p1of o t p)] = ["A"] from rfl]
      simp only [foldE]
      rw [@censusStep9 (freqDict st.alleles (fun _ => 0)) t
        ⟨[0, 1], [("A", p1of o t p)], [("A", recs)], st.genLog ++ [t], st.clog⟩
        (p1of o t p) recs rfl rfl hne1]
  · refine ⟨rfl, ⟨p1of o t p, rfl, hlen1, hmem1⟩,
      ⟨recs ++ [freqRecord [0, 1] (p1of o t p)], rfl, ?_, ?_⟩⟩
    · simp [hrlen]
    · intro r hr
      rcases List.mem_append.mp hr with h1 | h1
      · exact hrsum r h1
      · rw [List.mem_singleton.mp h1]
        refine sum_freqRecord01 hmem1 ?_
        rw [hlen1]
        decide

/-- The de novo collection of the scenario birth at the horizon. -/
def p0of (o : Oracle) : List ℤ :=
  choicesK (dkeys cfg9.initialFreqs) (cfg9.initialFreqs.map Prod.snd) (pyInt 20).toNat
    (o.initReal 100 "A")

theorem genBody9_first {o : Oracle} :
    ∃ st1, genBody cfg9 o 100 100 st9 = .ok st1 ∧ P9 1 st1 := by
  have h1 : foldE (birthStep cfg9 o 100 100) cfg9.graph.demes
      { st9 with genLog := st9.genLog ++ [100] } =
      .ok ⟨[0, 1], [("A", p0of o)], [("A", [])], [100], []⟩ := rfl
  have hlen0 : (p0of o).length = 20 := by
    have h := choicesK_length (dkeys cfg9.initialFreqs) (cfg9.initialFreqs.map Prod.snd)
      (pyInt 20).toNat (o.initReal 100 "A")
    rw [show (pyInt (20 : ℚ)).toNat = 20 from by decide] at h
    exact h
  have hne0 : p0of o ≠ [] := by
    intro hc
    rw [hc] at hlen0
    exact absurd hlen0 (by decide)
  have hmem0 : ∀ a ∈ p0of o, a ∈ ([0, 1] : List ℤ) := by
    intro a ha
    have h := choicesK_mem (show dkeys cfg9.initialFreqs ≠ [] from by decide)
      (cfg9.initialFreqs.map Prod.snd) (pyInt 20).toNat (o.initReal 100 "A") ha
    exact h
  have hlen1 : (p1of o 100 (p0of o)).length = 20 := choicesK_length _ _ _ _
  have hne1 : (p1of o 100 (p0of o)).isEmpty = false := by
    cases hp1 : p1of o 100 (p0of o) with
    | nil =>
      rw [hp1] at hlen1
      exact absurd hlen1 (by decide)
    | cons a l => rfl
  have hmem1 : ∀ a ∈ p1of o 100 (p0of o), a ∈ ([0, 1] : List ℤ) :=
    fun a ha => hmem0 _ (choicesK_mem hne0 _ _ _ ha)
  refine ⟨⟨[0, 1], [("A", p1of o 100 (p0of o))],
      [("A", [freqRecord [0, 1] (p1of o 100 (p0of o))])], [100],
      [⟨100, "A", p1of o 100 (p0of o), freqRecord [0, 1] (p1of o 100 (p0of o))⟩]⟩, ?_, ?_⟩
  · refine @genBody_ok_chain cfg9 o 100 100 st9 _ _
      ⟨[0, 1], [("A", p1of o 100 (p0of o))], [("A", [])], [100], []⟩ _
      h1 (handleNewAlleles9 o 100 _) ?_ ?_
    · show foldE (evolveStep cfg9 o 100) (dkeys [("A", p0of o)])
        (⟨[0, 1], [("A", p0of o)], [("A", [])], [100], []⟩ : SimState) = _
      rw [show dkeys [("A", p0of o)] = ["A"] from rfl]
      simp only [foldE]
      rw [@evolveStep9 o 100 ⟨[0, 1], [("A", p0of o)], [("A", [])], [100], []⟩ (p0of o)
        rfl rfl hne0 hmem0]
    · rw [handleMigration9, handlePulses9]
      dsimp only
      rw [show dkeys [("A", p1of o 100 (p0of o))] = ["A"] from rfl]
      simp only [foldE]
      rw [@censusStep9 (freqDict st9.alleles (fun _ => 0)) 100
        ⟨[0, 1], [("A", p1of o 100 (p0of o))], [("A", [])], [100], []⟩
        (p1of o 100 (p0of o)) [] rfl rfl hne1]
      rfl
  · refine ⟨rfl, ⟨p1of o 100 (p0of o), rfl, hlen1, hmem1⟩,
      ⟨[freqRecord [0, 1] (p1of o 100 (p0of o))], rfl, rfl, ?_⟩⟩
    intro r hr
    rw [List.mem_singleton.mp hr]
    refine sum_freqRecord01 hmem1 ?_
    rw [hlen1]
    decide

theorem loop9 {o : Oracle} :
    ∀ (t n : ℕ) (st : SimState), P9 n st →
      ∃ st1, loopGo cfg9 o 100 t st = .ok st1 ∧ P9 (n + t + 1) st1 := by
  intro t
  induction t with
  | zero =>
    intro n st hP
    obtain ⟨st1, h1, hP1⟩ := @genBody9_step o 100 0 n st hP
    refine ⟨st1, ?_, hP1⟩
    rw [loopGo]
    exact h1
  | succ u ih =>
    intro n st hP
    obtain ⟨st2, h2, hP2⟩ := @genBody9_step o 100 (u + 1) n st hP
    obtain ⟨st1, h1, hP1⟩ := ih (n + 1) st2 hP2
    refine ⟨st1, ?_, ?_⟩
    · rw [loopGo, h2]
      exact h1
    · have he : n + 1 + u + 1 = n + (u + 1) + 1 := by omega
      exact he ▸ hP1

theorem run9 (o : Oracle) : ∃ res, runFull cfg9 o st9 = .ok res ∧ P9 101 res := by
  obtain ⟨st1, h1, hP1⟩ := @genBody9_first o
  obtain ⟨res, h2, hP2⟩ := @loop9 o 99 1 st1 hP1
  refine ⟨res, ?_, hP2⟩
  show loopGo cfg9 o 100 100 st9 = .ok res
  rw [show (100 : ℕ) = 99 + 1 from rfl, loopGo]
  rw [show genBody cfg9 o 100 (99 + 1) st9 = .ok st1 from h1]
  exact h2

/-! ## Claim C9 -/

/-- Claim C9 (amended count): for the scenario graph with a single
population of infinite start time, alleles `[0, 1]`, initial frequency
one half, size 20 and no selection, mutation or migration, construction
succeeds and, for every randomness oracle, the run completes and
returns a history for the population containing exactly 101 frequency
records (the horizon with no finite start time is 100 and the
population is born at the horizon, so generations 100 down to 0 are all
censused), each summing to 1. -/
theorem C9_amended : ∀ o : Oracle,
    mkSim g9 [] [0, 1] (.scalar (1 / 2)) 0 0 [] = .ok (cfg9, st9) ∧
    ∃ res, runFull cfg9 o st9 = .ok res ∧
      ∃ recs, dget? res.history "A" = some recs ∧ recs.length = 101 ∧
        ∀ r ∈ recs, sumV r = 1 := by
  intro o
  refine ⟨by with_unfolding_all rfl, ?_⟩
  obtain ⟨res, hrun, hP⟩ := run9 o
  obtain ⟨-, -, recs, hh, hlen, hsum⟩ := hP
  refine ⟨res, hrun, recs, ?_, hlen, hsum⟩
  rw [hh]
  simp [dget?]

/-- Claim C9 counterexample: the scenario run returns 101 records for
the population, and 101 is not the 51 the claim states (the population
is born at the horizon 100, not 50 generations before 0, so every
generation 100..0 contributes a record). -/
theorem C9_counterexample :
    (∃ res, runFull cfg9 oracle0 st9 = .ok res ∧
      ∃ recs, dget? res.history "A" = some recs ∧ recs.length = 101) ∧ (101 : ℕ) ≠ 51 := by
  refine ⟨?_, by decide⟩
  obtain ⟨res, hrun, hP⟩ := run9 oracle0
  obtain ⟨-, -, recs, hh, hlen, -⟩ := hP
  refine ⟨res, hrun, recs, ?_, hlen⟩
  rw [hh]
  simp [dget?]
